import Mathlib

/-
Verification of the version-resolution core of the pipeline scheduler
(src/atc/db/algorithm/input_candidates.go) against its natural-language
specification.

The file shallowly embeds the Go code as executable Lean definitions.
The functions of input_candidates.go (Reduce, Pin, Unpin, IsNext,
HasUsedResource, pruneToCommonBuilds, commonBuildIDs) are translated
statement by statement from the source.  The collaborating types that the
repository uses but whose source files are not part of this tree
(VersionCandidates with Len, VersionIDs, ForVersion, BuildIDs,
PruneVersionsOfOtherBuildIDs; JobSet; BuildSet; VersionsIter;
ExistingBuildResolver) are modelled from the specification text, as noted
on each definition.

Go machine details embedded as values: Go slices become lists,
identifier types become Nat, Go map based sets become lists with
membership semantics (the spec itself, section 9, asks for an explicitly
ordered set representation), and the Go pair return (ResolvedInputs, bool)
with nil on failure becomes Option (failure carries no data, exactly as
the source returns literal nil on every failing path).  The recursion of
Reduce is embedded with an explicit fuel parameter; running out of fuel is
the distinguished outermost none, and the fuel-adequacy theorem for claim
C6 shows that fuel exceeding the number of inputs is never exhausted, so
the fuel wrapper is inert for the actual function.
-/

namespace ConcourseAlgo

/-- Modelled from the spec (section 3, VersionCandidates): one live version
of one input, annotated with, for each job id, the build ids of that job
that used this version.  The list order of entries is the caller supplied
preference order, most preferred first. -/
structure VersionEntry where
  id : Nat
  jobBuilds : List (Nat × List Nat)
deriving Repr, DecidableEq

/-- Modelled from the spec (section 3): the build ids recorded against one
job for one version; empty when the version has no recorded build for the
job. -/
def buildsFor (e : VersionEntry) (jobID : Nat) : List Nat :=
  ((e.jobBuilds.filter (fun p => p.1 == jobID)).map Prod.snd).flatten

/-- Modelled from the spec (section 3): the set of still viable versions
for one input, in preference order. -/
abbrev VersionCandidates := List VersionEntry

/-- Modelled from the spec (section 4.1): Len is the count of live
versions. -/
def lenVC (vc : VersionCandidates) : Nat := vc.length

/-- Modelled from the spec (section 4.1): VersionIDs produces the caller
order sequence over live version ids; the VersionsIter of the source is
this list, Next takes the head and Peek looks at the head of the
remainder. -/
def VersionIDs (vc : VersionCandidates) : List Nat := vc.map (·.id)

/-- Modelled from the spec (section 4.1): ForVersion returns the subset
containing only the given id, empty if absent. -/
def ForVersion (vc : VersionCandidates) (version : Nat) : VersionCandidates :=
  vc.filter (fun e => e.id == version)

/-- Modelled from the spec (section 4.1): BuildIDs returns the union, over
all live versions, of the build ids recorded against the job. -/
def BuildIDs (vc : VersionCandidates) (jobID : Nat) : List Nat :=
  (vc.map (fun e => buildsFor e jobID)).flatten

/-- Modelled from the spec (section 4.1): PruneVersionsOfOtherBuildIDs
returns the subset keeping a version iff it has no recorded build for the
job, or a recorded build for the job that is a member of keep. -/
def PruneVersionsOfOtherBuildIDs (vc : VersionCandidates) (jobID : Nat)
    (keep : List Nat) : VersionCandidates :=
  vc.filter (fun e =>
    (buildsFor e jobID).isEmpty || (buildsFor e jobID).any (fun b => keep.contains b))

/-- Modelled from the spec (section 3): the per input oracle over build
history.  ExistsForVersion answers whether a build already used exactly
this version for this input, ExistsForResource whether the resource has
ever been used by this input. -/
structure ExistingBuildResolver where
  ExistsForVersion : Nat → Bool
  ExistsForResource : Bool

/-- InputVersionCandidates, input_candidates.go lines 12 to 22.  The
unexported hasUsedResource cache pointer (nil until written) becomes an
Option Bool; the source never constructs the struct with the pointer set,
so the field starts none. -/
structure InputVersionCandidates where
  Input : String
  Passed : List Nat
  UseEveryVersion : Bool
  PinnedVersionID : Nat
  ExistingBuildResolver : ExistingBuildResolver
  VersionCandidates : VersionCandidates
  hasUsedResource : Option Bool

/-- InputCandidates, input_candidates.go line 8. -/
abbrev InputCandidates := List InputVersionCandidates

/-- ResolvedInputs, input_candidates.go line 10: Go builds the map by
inserting one entry per input in input order; the embedding keeps the
association list in that order. -/
abbrev ResolvedInputs := List (String × Nat)

/-- Body of HasUsedResource, input_candidates.go lines 49 to 58: compute
UseEveryVersion combined with ExistsForResource. -/
def hasUsedResourceValue (ic : InputVersionCandidates) : Bool :=
  ic.UseEveryVersion && ic.ExistingBuildResolver.ExistsForResource

/-- HasUsedResource, input_candidates.go lines 49 to 58.  The Go method
has a value receiver: the write to the cache field lands on the receiver
copy.  The embedding returns both the result and that updated copy; call
sites inside the algorithm use only the result, exactly as the Go caller
keeps its original struct. -/
def HasUsedResource (ic : InputVersionCandidates) : Bool × InputVersionCandidates :=
  match ic.hasUsedResource with
  | some h => (h, ic)
  | none =>
    let h := hasUsedResourceValue ic
    (h, { ic with hasUsedResource := some h })

/-- IsNext, input_candidates.go lines 24 to 47.  versionIDs is the state
of the VersionsIter after Next returned the candidate, so Peek is its
head. -/
def IsNext (ic : InputVersionCandidates) (version : Nat) (versionIDs : List Nat) : Bool :=
  if !(HasUsedResource ic).1 then
    true
  else if ic.ExistingBuildResolver.ExistsForVersion version then
    true
  else
    match versionIDs.head? with
    | none => true
    | some older => ic.ExistingBuildResolver.ExistsForVersion older

/-- Pin, input_candidates.go lines 123 to 129: replace the candidate set
of the input at the index by ForVersion of the given version. -/
def Pin (candidates : InputCandidates) (input : Nat) (version : Nat) : InputCandidates :=
  match candidates[input]? with
  | none => candidates
  | some ic =>
    candidates.set input
      { ic with VersionCandidates := ForVersion ic.VersionCandidates version }

/-- Unpin, input_candidates.go lines 131 to 133: restore the saved
element. -/
def Unpin (candidates : InputCandidates) (input : Nat)
    (ic : InputVersionCandidates) : InputCandidates :=
  candidates.set input ic

/-- Loop body of commonBuildIDs, input_candidates.go lines 156 to 177:
an input with an empty build set for the job neither seeds nor narrows
the intersection; the first nonempty set seeds it (firstTick) and later
nonempty sets intersect into it. -/
def commonStep (jobID : Nat) (acc : Option (List Nat))
    (set : InputVersionCandidates) : Option (List Nat) :=
  let setBuildIDs := BuildIDs set.VersionCandidates jobID
  if setBuildIDs.isEmpty then acc
  else
    match acc with
    | none => some setBuildIDs
    | some cur => some (cur.filter (fun b => setBuildIDs.contains b))

/-- commonBuildIDs, input_candidates.go lines 152 to 180: intersect the
per input BuildIDs for the job, skipping inputs whose set is empty; the
accumulator is unset (none) until the first nonempty set seeds it, and an
all-empty scan yields the empty set. -/
def commonBuildIDs (candidates : InputCandidates) (jobID : Nat) : List Nat :=
  (candidates.foldl (commonStep jobID) none).getD []

/-- pruneToCommonBuilds, input_candidates.go lines 135 to 150: for each
job in order, compute the common build ids over the current state and
filter every input with them.  The source first copies the slice
(lines 136 to 137), so all updates land on the fresh copy; the embedding
returns the new value. -/
def pruneToCommonBuilds (candidates : InputCandidates) (jobs : List Nat) : InputCandidates :=
  jobs.foldl
    (fun nc jobID =>
      let common := commonBuildIDs nc jobID
      nc.map (fun ic =>
        { ic with VersionCandidates :=
            PruneVersionsOfOtherBuildIDs ic.VersionCandidates jobID common }))
    candidates

/-- Base case of Reduce, input_candidates.go lines 107 to 119: read the
first version of every input, failing on any input with none (the Go
loop returns at the first such input; the result is the same). -/
def baseResolve : InputCandidates → Option ResolvedInputs
  | [] => some []
  | ic :: rest =>
    match (VersionIDs ic.VersionCandidates).head? with
    | none => none
    | some vid =>
      match baseResolve rest with
      | none => none
      | some m => some ((ic.Input, vid) :: m)

/-- Inner version loop of Reduce, input_candidates.go lines 85 to 104.
reduceNext is the recursive call at depth plus one (closed over fuel by
the caller).  On Next exhaustion the Go code returns nil false, embedded
as some none; success of the recursive call is kept when IsNext accepts,
otherwise the Go code unpins, which the embedding renders by reusing the
unmodified nc for the next iteration.  The outermost none propagates fuel
exhaustion. -/
def branchVersions (reduceNext : InputCandidates → Option (Option ResolvedInputs))
    (nc : InputCandidates) (i : Nat) (ic : InputVersionCandidates) :
    List Nat → Option (Option ResolvedInputs)
  | [] => some none
  | id :: rest =>
    match reduceNext (Pin nc i id) with
    | none => none
    | some (some mapping) =>
      if IsNext ic id rest then some (some mapping)
      else branchVersions reduceNext nc i ic rest
    | some none => branchVersions reduceNext nc i ic rest

/-- Scan of Reduce over the inputs, input_candidates.go lines 72 to 105:
an input whose Len is one is already reduced; an input with a nonzero pin
is restricted to the pin and the scan continues; otherwise the input is
the branch point.  When the scan runs off the end the base case resolves
(lines 107 to 119).  rem counts the indices still ahead, kept equal to
nc.length minus i by the wrapper below (Pin preserves the length), so the
recursion is structural. -/
def scanAux (reduceNext : InputCandidates → Option (Option ResolvedInputs)) :
    Nat → InputCandidates → Nat → Option (Option ResolvedInputs)
  | 0, nc, _ => some (baseResolve nc)
  | rem + 1, nc, i =>
    if h : i < nc.length then
      if lenVC (nc.get ⟨i, h⟩).VersionCandidates == 1 then
        scanAux reduceNext rem nc (i + 1)
      else if (nc.get ⟨i, h⟩).PinnedVersionID != 0 then
        scanAux reduceNext rem (Pin nc i (nc.get ⟨i, h⟩).PinnedVersionID) (i + 1)
      else
        branchVersions reduceNext nc i (nc.get ⟨i, h⟩)
          (VersionIDs (nc.get ⟨i, h⟩).VersionCandidates)
    else
      some (baseResolve nc)

/-- The scan entered at index i. -/
def scanInputs (reduceNext : InputCandidates → Option (Option ResolvedInputs))
    (nc : InputCandidates) (i : Nat) : Option (Option ResolvedInputs) :=
  scanAux reduceNext (nc.length - i) nc i

/-- Reduce, input_candidates.go lines 69 to 121, with explicit fuel: each
recursion level consumes one unit, and exhaustion is the outermost none.
depth is threaded exactly as in the source (passed on incremented, never
read). -/
def reduceFuel : Nat → Nat → InputCandidates → List Nat → Option (Option ResolvedInputs)
  | 0, _, _, _ => none
  | fuel + 1, depth, candidates, jobs =>
    scanInputs (fun nc => reduceFuel fuel (depth + 1) nc jobs)
      (pruneToCommonBuilds candidates jobs) 0

/-- Reduce, input_candidates.go lines 69 to 121.  Fuel one more than the
number of inputs is sufficient by the termination theorem for claim C6
(the recursion depth is bounded by the number of inputs), so the getD
branch is inert. -/
def Reduce (candidates : InputCandidates) (depth : Nat) (jobs : List Nat) :
    Option ResolvedInputs :=
  (reduceFuel (candidates.length + 1) depth candidates jobs).getD none

/-- A Go slice reference for the mutable embedding of Reduce: an index
into the store of backing arrays. -/
abbrev Ref := Nat

/-- The mutable state of one resolution attempt: the backing arrays of
every slice allocated so far.  The caller's slice is one of them; every
write of the Go body is modelled as a store update through a Ref. -/
abbrev Store := List InputCandidates

/-- Dereference a slice: the backing array it points at. -/
def readRef (σ : Store) (r : Ref) : InputCandidates :=
  (σ[r]?).getD []

/-- A Go element assignment slice[i] = ic, as a store write through the
reference. -/
def writeElem (σ : Store) (r : Ref) (i : Nat) (ic : InputVersionCandidates) : Store :=
  σ.set r ((readRef σ r).set i ic)

/-- Pin, input_candidates.go lines 123 to 129, on the mutable store: read
candidates[input] through the reference, then write the restricted
element back through the same reference. -/
def PinSt (σ : Store) (r : Ref) (input version : Nat) : Store :=
  match (readRef σ r)[input]? with
  | none => σ
  | some ic =>
    writeElem σ r input
      { ic with VersionCandidates := ForVersion ic.VersionCandidates version }

/-- Unpin, input_candidates.go lines 131 to 133, on the mutable store:
write the saved element back through the reference. -/
def UnpinSt (σ : Store) (r : Ref) (input : Nat) (ic : InputVersionCandidates) : Store :=
  writeElem σ r input ic

/-- The element update the prune loop writes back for one input,
input_candidates.go lines 143 to 145. -/
def pruneUpd (jobID : Nat) (common : List Nat)
    (ic : InputVersionCandidates) : InputVersionCandidates :=
  { ic with VersionCandidates :=
      PruneVersionsOfOtherBuildIDs ic.VersionCandidates jobID common }

/-- Inner write loop of pruneToCommonBuilds, input_candidates.go lines
142 to 146: for each index, read the element through the reference (reads
at index i happen before the write at i, so earlier writes of the same
loop are invisible to them) and write back the pruned element. -/
def pruneLoopSt (jobID : Nat) (common : List Nat) :
    Nat → Store → Ref → Nat → Store
  | 0, σ, _, _ => σ
  | rem + 1, σ, r, i =>
    match (readRef σ r)[i]? with
    | none => σ
    | some ic =>
      pruneLoopSt jobID common rem
        (writeElem σ r i (pruneUpd jobID common ic)) r (i + 1)

/-- One iteration of the outer job loop of pruneToCommonBuilds: the
common build set is computed from the current array before the write
loop runs (input_candidates.go lines 139 to 147). -/
def pruneJobSt (σ : Store) (r : Ref) (jobID : Nat) : Store :=
  pruneLoopSt jobID (commonBuildIDs (readRef σ r) jobID) (readRef σ r).length σ r 0

/-- pruneToCommonBuilds, input_candidates.go lines 135 to 150, on the
mutable store: make and copy allocate a fresh backing array holding the
caller's elements (lines 136 to 137) and every later write of the job
loop goes through the fresh reference, never the receiver. -/
def pruneToCommonBuildsSt (σ : Store) (rc : Ref) (jobs : List Nat) : Store × Ref :=
  (jobs.foldl (fun σ2 jobID => pruneJobSt σ2 σ.length jobID) (σ ++ [readRef σ rc]),
    σ.length)

/-- Inner version loop of Reduce on the mutable store, input_candidates.go
lines 85 to 104: Pin writes through the reference before the recursive
call, and on a rejected or failed attempt Unpin writes the saved element
back (lines 98, 102) before the next iteration. -/
def branchVersionsSt (reduceNext : Store → Ref → Option (Option ResolvedInputs) × Store)
    (rn : Ref) (i : Nat) (ic : InputVersionCandidates) :
    List Nat → Store → Option (Option ResolvedInputs) × Store
  | [], σ => (some none, σ)
  | id :: rest, σ =>
    match reduceNext (PinSt σ rn i id) rn with
    | (none, σ2) => (none, σ2)
    | (some (some mapping), σ2) =>
      if IsNext ic id rest then (some (some mapping), σ2)
      else branchVersionsSt reduceNext rn i ic rest (UnpinSt σ2 rn i ic)
    | (some none, σ2) => branchVersionsSt reduceNext rn i ic rest (UnpinSt σ2 rn i ic)

/-- Scan of Reduce on the mutable store, input_candidates.go lines 72 to
105, reading the current array through the reference at every step. -/
def scanAuxSt (reduceNext : Store → Ref → Option (Option ResolvedInputs) × Store) :
    Nat → Store → Ref → Nat → Option (Option ResolvedInputs) × Store
  | 0, σ, rn, _ => (some (baseResolve (readRef σ rn)), σ)
  | rem + 1, σ, rn, i =>
    if h : i < (readRef σ rn).length then
      if lenVC ((readRef σ rn).get ⟨i, h⟩).VersionCandidates == 1 then
        scanAuxSt reduceNext rem σ rn (i + 1)
      else if ((readRef σ rn).get ⟨i, h⟩).PinnedVersionID != 0 then
        scanAuxSt reduceNext rem
          (PinSt σ rn i ((readRef σ rn).get ⟨i, h⟩).PinnedVersionID) rn (i + 1)
      else
        branchVersionsSt reduceNext rn i ((readRef σ rn).get ⟨i, h⟩)
          (VersionIDs ((readRef σ rn).get ⟨i, h⟩).VersionCandidates) σ
    else
      (some (baseResolve (readRef σ rn)), σ)

/-- Reduce on the mutable store, input_candidates.go lines 69 to 121,
with the same fuel discipline as reduceFuel: the body allocates its
working copy through pruneToCommonBuildsSt and scans it; the recursion
receives the store and the reference of the copy. -/
def reduceFuelSt :
    Nat → Nat → Store → Ref → List Nat → Option (Option ResolvedInputs) × Store
  | 0, _, σ, _, _ => (none, σ)
  | fuel + 1, depth, σ, rc, jobs =>
    scanAuxSt (fun σ2 r2 => reduceFuelSt fuel (depth + 1) σ2 r2 jobs)
      (readRef (pruneToCommonBuildsSt σ rc jobs).1
        (pruneToCommonBuildsSt σ rc jobs).2).length
      (pruneToCommonBuildsSt σ rc jobs).1 (pruneToCommonBuildsSt σ rc jobs).2 0

/-- Reduce called on the slice at rc in store σ, returning the result
together with the whole post-call store, so the fate of the caller's
backing array is part of the observable outcome. -/
def ReduceSt (σ : Store) (rc : Ref) (depth : Nat) (jobs : List Nat) :
    Option ResolvedInputs × Store :=
  ((reduceFuelSt ((readRef σ rc).length + 1) depth σ rc jobs).1.getD none,
    (reduceFuelSt ((readRef σ rc).length + 1) depth σ rc jobs).2)

/-- Well-formed candidate sets: each input lists every live version id at
most once.  This holds for the repository, whose VersionCandidates is a
set keyed by version (spec section 3: unique membership). -/
def WFids (c : InputCandidates) : Prop :=
  ∀ ic ∈ c, (VersionIDs ic.VersionCandidates).Nodup

/-- The number of inputs still carrying two or more candidate versions;
the termination measure of the backtracking search. -/
def countMulti (c : InputCandidates) : Nat :=
  c.countP (fun ic => decide (2 ≤ ic.VersionCandidates.length))

/-- One input state narrows another: same input name and pin, and the
candidate set is a sublist (pruning and pinning only remove versions). -/
def NarrowIC (a b : InputVersionCandidates) : Prop :=
  b.Input = a.Input ∧ b.PinnedVersionID = a.PinnedVersionID ∧
    b.VersionCandidates.Sublist a.VersionCandidates

/-- Pointwise narrowing of a whole resolution state. -/
def Narrows (c c2 : InputCandidates) : Prop :=
  List.Forall₂ NarrowIC c c2

/-- Modelled from the spec (section 8, completeness oracle): one chosen
version per input, kept with its input. -/
def allAssignments (c : InputCandidates) :
    List (List (InputVersionCandidates × VersionEntry)) :=
  c.foldr
    (fun ic acc =>
      ((ic.VersionCandidates.map (fun e => acc.map (fun t => (ic, e) :: t))).flatten))
    [[]]

/-- Modelled from the spec (section 8 and glossary): the two chosen
versions co-occur in a recorded build of every job that both inputs
listed in Passed. -/
def pairOK (x y : InputVersionCandidates × VersionEntry) : Bool :=
  x.1.Passed.all (fun j =>
    !(y.1.Passed.contains j) ||
      (buildsFor x.2 j).any (fun b => (buildsFor y.2 j).contains b))

/-- Modelled from the spec (section 8): an assignment satisfies every
pairwise passed constraint and every pin.  The sequential consumption
requirement is vacuous for inputs with UseEveryVersion false, the only
kind this file evaluates the oracle on. -/
def assignmentOK : List (InputVersionCandidates × VersionEntry) → Bool
  | [] => true
  | x :: rest =>
    (x.1.PinnedVersionID == 0 || x.2.id == x.1.PinnedVersionID) &&
      rest.all (fun y => pairOK x y && pairOK y x) && assignmentOK rest

/-- Modelled from the spec (section 8): brute force satisfiability of the
candidate space. -/
def oracleSat (c : InputCandidates) : Bool :=
  (allAssignments c).any assignmentOK

/-- A resolver that never recorded anything; used by inputs whose history
plays no role. -/
def noRes : ExistingBuildResolver := ⟨fun _ => false, false⟩

/-- Plain input: no sequential consumption, no pin, empty cache. -/
def mkIn (name : String) (passed : List Nat) (vc : VersionCandidates) :
    InputVersionCandidates :=
  ⟨name, passed, false, 0, noRes, vc, none⟩

/-- Claim C1 failing instance, input a: versions 1 and 2, both passed on
jobs 1 and 2; version 1 from build 1 of job 1 and build 11 of job 2,
version 2 from build 2 of job 1 and build 13 of job 2. -/
def inputA : InputVersionCandidates :=
  mkIn "a" [1, 2] [⟨1, [(1, [1]), (2, [11])]⟩, ⟨2, [(1, [2]), (2, [13])]⟩]

/-- Claim C1 failing instance, input b: version 10 from build 2 of job 1
and build 11 of job 2, version 20 from build 1 of job 1 and build 14 of
job 2. -/
def inputB : InputVersionCandidates :=
  mkIn "b" [1, 2] [⟨10, [(1, [2]), (2, [11])]⟩, ⟨20, [(1, [1]), (2, [14])]⟩]

/-- Claim C2 disagreement instance, first input. -/
def inputX : InputVersionCandidates :=
  mkIn "x" [5, 6] [⟨3, [(5, [1]), (6, [11])]⟩, ⟨4, [(5, [2]), (6, [13])]⟩]

/-- Claim C2 disagreement instance, second input. -/
def inputY : InputVersionCandidates :=
  mkIn "y" [5, 6] [⟨30, [(5, [2]), (6, [11])]⟩, ⟨40, [(5, [1]), (6, [14])]⟩]

/-- Claim C3 counterexample: input pinned to version 5, whose candidates
contain the pin, but whose version 1 shares build 1 of job 1 with the
partner input while the pin only appears in build 5. -/
def pinnedA : InputVersionCandidates :=
  ⟨"a", [1], false, 5, noRes, [⟨1, [(1, [1])]⟩, ⟨5, [(1, [5])]⟩], none⟩

/-- Claim C3 counterexample: partner input constraining job 1 to build
1. -/
def partnerB : InputVersionCandidates :=
  mkIn "b" [1] [⟨10, [(1, [1])]⟩]

/-- Sequential consumption input for claim C4: UseEveryVersion with the
given history; candidate list in iteration order, newest first. -/
def seqInput (ex : Nat → Bool) (er : Bool) (vc : VersionCandidates) :
    InputVersionCandidates :=
  ⟨"i", [], true, 0, ⟨ex, er⟩, vc, none⟩

/-- History answering true exactly on the candidates among 1, 2, 3 that
the three flags select. -/
def exThree (e1 e2 e3 : Bool) : Nat → Bool :=
  fun v => if v == 1 then e1 else if v == 2 then e2 else if v == 3 then e3 else false

/-- Claim C5: input whose nonzero pin 99 is absent from its candidates. -/
def pinAbsentIn : InputVersionCandidates :=
  ⟨"q", [], false, 99, noRes, [⟨10, []⟩, ⟨20, []⟩], none⟩

/-- Claim C5: input with zero candidate versions. -/
def zeroCandIn : InputVersionCandidates :=
  mkIn "z" [] []

/-- Claim C5: a free input whose every branch fails downstream, so its
version iterator exhausts and the search backtracks empty handed. -/
def exhaustIn : InputVersionCandidates :=
  mkIn "w" [] [⟨4, []⟩, ⟨3, []⟩]

/-- Claim C7 counterexample, input a: version 1 from build 1 of job 1 and
build 11 of job 2; version 2 from build 2 of job 1, with no build of
job 2. -/
def idemA : InputVersionCandidates :=
  mkIn "a" [1, 2] [⟨1, [(1, [1]), (2, [11])]⟩, ⟨2, [(1, [2])]⟩]

/-- Claim C7 counterexample, input b: versions from builds 1 and 2 of
job 1 only. -/
def idemB : InputVersionCandidates :=
  mkIn "b" [1] [⟨101, [(1, [1])]⟩, ⟨102, [(1, [2])]⟩]

/-- Claim C7 counterexample, input c: single version from build 12 of
job 2, which shares no build of job 2 with input a. -/
def idemC : InputVersionCandidates :=
  mkIn "c" [2] [⟨201, [(2, [12])]⟩]

/-- Claim C9 instance: pin field zero, two candidates, sequential
consumption history that rejects the newer candidate 7 and accepts the
older candidate 5, forcing the search to walk the whole candidate list. -/
def freeZeroPin : InputVersionCandidates :=
  ⟨"x", [], true, 0, ⟨fun _ => false, true⟩, [⟨7, []⟩, ⟨5, []⟩], none⟩

/-- The input at index j carries pin p and name n, and either p is still
among its candidate ids or the set is already restricted to p.  This is
the state invariant under which the search can only resolve j to p. -/
def PinAvailable (p : Nat) (n : String) (j : Nat) (cs : InputCandidates) : Prop :=
  ∃ icj, cs[j]? = some icj ∧ icj.PinnedVersionID = p ∧ icj.Input = n ∧
    (p ∈ VersionIDs icj.VersionCandidates ∨ ∀ e ∈ icj.VersionCandidates, e.id = p)

/-- The input at index j carries pin p, p is not among its candidate ids,
and the candidate count is not one (so the scan will apply the pin and
empty the set). -/
def PinMissing (p : Nat) (j : Nat) (cs : InputCandidates) : Prop :=
  ∃ icj, cs[j]? = some icj ∧ icj.PinnedVersionID = p ∧
    p ∉ VersionIDs icj.VersionCandidates ∧ icj.VersionCandidates.length ≠ 1

lemma Pin_length (candidates : InputCandidates) (input version : Nat) :
    (Pin candidates input version).length = candidates.length := by
  unfold Pin
  cases candidates[input]? <;> simp

lemma Pin_eq_of_ge (c : InputCandidates) (i v : Nat) (h : c.length ≤ i) :
    Pin c i v = c := by
  unfold Pin
  rw [List.getElem?_eq_none h]

lemma Pin_eq_set (c : InputCandidates) (i v : Nat) (h : i < c.length) :
    Pin c i v
      = c.set i
          { c.get ⟨i, h⟩ with
            VersionCandidates := ForVersion (c.get ⟨i, h⟩).VersionCandidates v } := by
  unfold Pin
  rw [List.getElem?_eq_getElem h]
  rfl

lemma narrowIC_refl (a : InputVersionCandidates) : NarrowIC a a :=
  ⟨rfl, rfl, List.Sublist.refl _⟩

lemma narrowIC_trans {a b c : InputVersionCandidates}
    (h1 : NarrowIC a b) (h2 : NarrowIC b c) : NarrowIC a c :=
  ⟨h2.1.trans h1.1, h2.2.1.trans h1.2.1, h2.2.2.trans h1.2.2⟩

lemma narrows_refl (c : InputCandidates) : Narrows c c :=
  List.forall₂_same.mpr (fun a _ => narrowIC_refl a)

lemma narrows_trans {a b c : InputCandidates}
    (h1 : Narrows a b) (h2 : Narrows b c) : Narrows a c := by
  induction h1 generalizing c with
  | nil => cases h2; exact List.Forall₂.nil
  | cons hab hrest IH =>
    cases h2 with
    | cons hbc hrest2 => exact List.Forall₂.cons (narrowIC_trans hab hbc) (IH hrest2)

lemma narrows_length {c c2 : InputCandidates} (h : Narrows c c2) :
    c2.length = c.length :=
  h.length_eq.symm

lemma narrows_map_input {c c2 : InputCandidates} (h : Narrows c c2) :
    c2.map (fun ic => ic.Input) = c.map (fun ic => ic.Input) := by
  induction h with
  | nil => rfl
  | cons hab hrest IH => simp [hab.1, IH]

lemma narrows_wfids {c c2 : InputCandidates} (h : Narrows c c2) (hw : WFids c) :
    WFids c2 := by
  induction h with
  | nil => exact hw
  | cons hab hrest IH =>
    intro ic hm
    rcases List.mem_cons.mp hm with rfl | hm
    · simp only [VersionIDs]
      exact List.Nodup.sublist (hab.2.2.map (fun e => e.id))
        (by simpa [VersionIDs] using hw _ (List.mem_cons_self _ _))
    · exact IH (fun x hx => hw x (List.mem_cons_of_mem _ hx)) ic hm

lemma narrows_countMulti {c c2 : InputCandidates} (h : Narrows c c2) :
    countMulti c2 ≤ countMulti c := by
  induction h with
  | nil => exact Nat.le_refl _
  | cons hab hrest IH =>
    rename_i a b l1 l2
    unfold countMulti at *
    rw [List.countP_cons, List.countP_cons]
    have hlen := hab.2.2.length_le
    have hif :
        (if decide (2 ≤ b.VersionCandidates.length) = true then 1 else 0)
          ≤ (if decide (2 ≤ a.VersionCandidates.length) = true then 1 else 0) := by
      by_cases hb : 2 ≤ b.VersionCandidates.length
      · have ha : 2 ≤ a.VersionCandidates.length := Nat.le_trans hb hlen
        simp [hb, ha]
      · simp [hb]
    exact Nat.add_le_add IH hif

lemma forall₂_set {α : Type} (R : α → α → Prop) (hrefl : ∀ a, R a a) :
    ∀ (c : List α) (i : Nat) (b : α),
      (∀ h : i < c.length, R (c.get ⟨i, h⟩) b) → List.Forall₂ R c (c.set i b)
  | [], _, _, _ => List.Forall₂.nil
  | _ :: _, 0, b, hb =>
    List.Forall₂.cons (hb (Nat.succ_pos _))
      (List.forall₂_same.mpr (fun a _ => hrefl a))
  | x :: xs, i + 1, b, hb =>
    List.Forall₂.cons (hrefl x)
      (forall₂_set R hrefl xs i b (fun h => hb (Nat.succ_lt_succ h)))

lemma forall₂_map_self {α : Type} (R : α → α → Prop) (f : α → α) :
    ∀ (c : List α), (∀ a ∈ c, R a (f a)) → List.Forall₂ R c (c.map f)
  | [], _ => List.Forall₂.nil
  | x :: xs, h =>
    List.Forall₂.cons (h x (List.mem_cons_self _ _))
      (forall₂_map_self R f xs (fun a ha => h a (List.mem_cons_of_mem _ ha)))

lemma narrows_pin (c : InputCandidates) (i v : Nat) : Narrows c (Pin c i v) := by
  rcases Nat.lt_or_ge i c.length with h | h
  · rw [Pin_eq_set c i v h]
    apply forall₂_set NarrowIC narrowIC_refl
    intro h2
    exact ⟨rfl, rfl, List.filter_sublist _⟩
  · rw [Pin_eq_of_ge c i v h]
    exact narrows_refl c

/-- One pass of the prune loop body for a single job, with the keep set
already computed. -/
def pruneStep (c : InputCandidates) (j : Nat) (K : List Nat) : InputCandidates :=
  c.map (fun ic =>
    { ic with VersionCandidates := PruneVersionsOfOtherBuildIDs ic.VersionCandidates j K })

lemma narrows_pruneStep (c : InputCandidates) (j : Nat) (K : List Nat) :
    Narrows c (pruneStep c j K) := by
  apply forall₂_map_self
  intro a _
  exact ⟨rfl, rfl, List.filter_sublist _⟩

lemma prune_cons (c : InputCandidates) (j : Nat) (rest : List Nat) :
    pruneToCommonBuilds c (j :: rest)
      = pruneToCommonBuilds (pruneStep c j (commonBuildIDs c j)) rest := rfl

lemma narrows_prune (c : InputCandidates) (jobs : List Nat) :
    Narrows c (pruneToCommonBuilds c jobs) := by
  induction jobs generalizing c with
  | nil => exact narrows_refl c
  | cons j rest IH =>
    rw [prune_cons]
    exact narrows_trans (narrows_pruneStep c j (commonBuildIDs c j)) (IH _)

lemma length_ForVersion_le_one (vc : VersionCandidates) (v : Nat)
    (h : (VersionIDs vc).Nodup) : (ForVersion vc v).length ≤ 1 := by
  have h1 : (ForVersion vc v).length
      = List.countP (fun x => x == v) (VersionIDs vc) := by
    rw [ForVersion, ← List.countP_eq_length_filter, VersionIDs, List.countP_map]
    rfl
  rw [h1]
  have h2 := List.nodup_iff_count_le_one.mp h v
  simpa [List.count] using h2

lemma countP_set_lt {α : Type} (p : α → Bool) :
    ∀ (c : List α) (i : Nat) (h : i < c.length) (a : α),
      p (c.get ⟨i, h⟩) = true → p a = false →
      (c.set i a).countP p < c.countP p := by
  intro c
  induction c with
  | nil => intro i h; simp at h
  | cons x xs IH =>
    intro i h a hc ha
    cases i with
    | zero =>
      have hcx : p x = true := hc
      simp [List.countP_cons, hcx, ha]
    | succ i =>
      simp only [List.set_cons_succ, List.countP_cons]
      have := IH i (Nat.lt_of_succ_lt_succ h) a hc ha
      omega

lemma branch_ne_none (r : InputCandidates → Option (Option ResolvedInputs))
    (nc : InputCandidates) (i : Nat) (ic : InputVersionCandidates) :
    ∀ iter : List Nat, (∀ id ∈ iter, r (Pin nc i id) ≠ none) →
      branchVersions r nc i ic iter ≠ none := by
  intro iter
  induction iter with
  | nil => intro _; simp [branchVersions]
  | cons id rest IH =>
    intro hr
    have IH2 := IH (fun id2 h2 => hr id2 (List.mem_cons_of_mem _ h2))
    cases hrid : r (Pin nc i id) with
    | none => exact absurd hrid (hr id (List.mem_cons_self _ _))
    | some o =>
      cases o with
      | none => simpa [branchVersions, hrid] using IH2
      | some m =>
        by_cases hn : IsNext ic id rest
        · simp [branchVersions, hrid, hn]
        · simpa [branchVersions, hrid, hn] using IH2

lemma scanAux_ne_none (r : InputCandidates → Option (Option ResolvedInputs)) (K : Nat)
    (hr : ∀ c2, WFids c2 → countMulti c2 < K → r c2 ≠ none) :
    ∀ (rem : Nat) (nc : InputCandidates) (i : Nat),
      WFids nc → countMulti nc ≤ K → scanAux r rem nc i ≠ none := by
  intro rem
  induction rem with
  | zero => intro nc i _ _; simp [scanAux]
  | succ rem IH =>
    intro nc i hw hc
    rw [scanAux]
    by_cases h : i < nc.length
    · rw [dif_pos h]
      by_cases h1 : (lenVC (nc.get ⟨i, h⟩).VersionCandidates == 1) = true
      · rw [if_pos h1]
        exact IH nc (i + 1) hw hc
      · rw [if_neg h1]
        by_cases h2 : ((nc.get ⟨i, h⟩).PinnedVersionID != 0) = true
        · rw [if_pos h2]
          exact IH (Pin nc i (nc.get ⟨i, h⟩).PinnedVersionID) (i + 1)
            (narrows_wfids (narrows_pin nc i _) hw)
            (Nat.le_trans (narrows_countMulti (narrows_pin nc i _)) hc)
        · rw [if_neg h2]
          apply branch_ne_none
          intro id hid
          apply hr
          · exact narrows_wfids (narrows_pin nc i id) hw
          · have hlen2 : 2 ≤ (nc.get ⟨i, h⟩).VersionCandidates.length := by
              have hne : (nc.get ⟨i, h⟩).VersionCandidates.length ≠ 1 := by
                simpa [lenVC] using h1
              have hpos : (nc.get ⟨i, h⟩).VersionCandidates ≠ [] := by
                intro habs
                rw [habs] at hid
                simp [VersionIDs] at hid
              have := List.length_pos.mpr hpos
              omega
            have hfle := length_ForVersion_le_one (nc.get ⟨i, h⟩).VersionCandidates id
              (hw _ (List.get_mem nc i h))
            have hnot : ¬ 2 ≤ (ForVersion (nc.get ⟨i, h⟩).VersionCandidates id).length := by
              omega
            have hlt : countMulti (Pin nc i id) < countMulti nc := by
              rw [Pin_eq_set nc i id h]
              exact countP_set_lt _ nc i h _
                (decide_eq_true hlen2) (decide_eq_false hnot)
            exact Nat.lt_of_lt_of_le hlt hc
    · rw [dif_neg h]
      simp

lemma reduceFuel_ne_none :
    ∀ (f d : Nat) (c : InputCandidates) (jobs : List Nat),
      WFids c → countMulti c < f → reduceFuel f d c jobs ≠ none := by
  intro f
  induction f with
  | zero => intro d c jobs _ hc; exact absurd hc (Nat.not_lt_zero _)
  | succ f IH =>
    intro d c jobs hw hc
    rw [reduceFuel]
    unfold scanInputs
    apply scanAux_ne_none _ f
    · intro c2 h1 h2
      exact IH (d + 1) c2 jobs h1 h2
    · exact narrows_wfids (narrows_prune c jobs) hw
    · exact Nat.le_trans (narrows_countMulti (narrows_prune c jobs))
        (Nat.lt_succ_iff.mp hc)

/-- Claim C6 (confirmed).  For inputs whose candidate sets list each
version id once (true of the repository, whose candidate sets are keyed
by version), the search terminates and its recursion depth is bounded by
the number of inputs: each fuel unit is one recursion level, each
recursive call is made only after pinning the branch input to a single
version and pruning only narrows, so the count of multi candidate inputs
drops at each level and fuel exceeding the input count is never
exhausted. -/
theorem claim_C6_termination_depth_bound :
    ∀ (f d : Nat) (c : InputCandidates) (jobs : List Nat),
      WFids c → c.length < f → reduceFuel f d c jobs ≠ none := by
  intro f d c jobs hw hl
  exact reduceFuel_ne_none f d c jobs hw
    (Nat.lt_of_le_of_lt (List.countP_le_length _) hl)

/-- Witness for claim C6 on a two input instance at fuel three. -/
theorem claim_C6_witness :
    reduceFuel 3 0 [exhaustIn, pinAbsentIn] [] ≠ none :=
  claim_C6_termination_depth_bound 3 0 [exhaustIn, pinAbsentIn] []
    (by unfold WFids; decide) (by decide)

lemma baseResolve_names :
    ∀ (nc : InputCandidates) (m : ResolvedInputs), baseResolve nc = some m →
      m.map Prod.fst = nc.map (fun ic => ic.Input) := by
  intro nc
  induction nc with
  | nil =>
    intro m h
    simp only [baseResolve, Option.some_inj] at h
    simp [← h]
  | cons ic rest IH =>
    intro m h
    rw [baseResolve] at h
    cases h1 : (VersionIDs ic.VersionCandidates).head? with
    | none => rw [h1] at h; simp at h
    | some vid =>
      rw [h1] at h
      cases h2 : baseResolve rest with
      | none => rw [h2] at h; simp at h
      | some m2 =>
        rw [h2] at h
        simp only [Option.some_inj] at h
        have hm2 : m2.map Prod.fst = rest.map (fun ic => ic.Input) :=
          IH m2 h2
        simp [← h, hm2]

lemma branch_names (r : InputCandidates → Option (Option ResolvedInputs))
    (nc : InputCandidates) (i : Nat) (ic : InputVersionCandidates)
    (hr : ∀ (id : Nat) (m2 : ResolvedInputs), r (Pin nc i id) = some (some m2) →
      m2.map Prod.fst = (Pin nc i id).map (fun x => x.Input)) :
    ∀ (iter : List Nat) (m : ResolvedInputs),
      branchVersions r nc i ic iter = some (some m) →
      m.map Prod.fst = nc.map (fun x => x.Input) := by
  intro iter
  induction iter with
  | nil => intro m h; simp [branchVersions] at h
  | cons id rest IH =>
    intro m h
    cases hrid : r (Pin nc i id) with
    | none => rw [branchVersions, hrid] at h; simp at h
    | some o =>
      cases o with
      | none =>
        rw [branchVersions, hrid] at h
        exact IH m h
      | some m2 =>
        rw [branchVersions, hrid] at h
        dsimp only at h
        by_cases hn : IsNext ic id rest
        · rw [if_pos hn] at h
          simp only [Option.some_inj] at h
          rw [← h]
          rw [hr id m2 hrid]
          exact narrows_map_input (narrows_pin nc i id)
        · rw [if_neg hn] at h
          exact IH m h

lemma scanAux_names (r : InputCandidates → Option (Option ResolvedInputs))
    (hr : ∀ (c2 : InputCandidates) (m2 : ResolvedInputs),
      r c2 = some (some m2) → m2.map Prod.fst = c2.map (fun x => x.Input)) :
    ∀ (rem : Nat) (nc : InputCandidates) (i : Nat) (m : ResolvedInputs),
      scanAux r rem nc i = some (some m) →
      m.map Prod.fst = nc.map (fun x => x.Input) := by
  intro rem
  induction rem with
  | zero =>
    intro nc i m h
    simp only [scanAux, Option.some_inj] at h
    exact baseResolve_names nc m h
  | succ rem IH =>
    intro nc i m h
    rw [scanAux] at h
    by_cases hd : i < nc.length
    · rw [dif_pos hd] at h
      by_cases h1 : (lenVC (nc.get ⟨i, hd⟩).VersionCandidates == 1) = true
      · rw [if_pos h1] at h
        exact IH nc (i + 1) m h
      · rw [if_neg h1] at h
        by_cases h2 : ((nc.get ⟨i, hd⟩).PinnedVersionID != 0) = true
        · rw [if_pos h2] at h
          have := IH (Pin nc i (nc.get ⟨i, hd⟩).PinnedVersionID) (i + 1) m h
          rw [this]
          exact narrows_map_input (narrows_pin nc i _)
        · rw [if_neg h2] at h
          exact branch_names r nc i (nc.get ⟨i, hd⟩)
            (fun id m2 h3 => hr (Pin nc i id) m2 h3) _ m h
    · rw [dif_neg hd] at h
      simp only [Option.some_inj] at h
      exact baseResolve_names nc m h

lemma reduce_names :
    ∀ (f d : Nat) (c : InputCandidates) (jobs : List Nat) (m : ResolvedInputs),
      reduceFuel f d c jobs = some (some m) →
      m.map Prod.fst = c.map (fun ic => ic.Input) := by
  intro f
  induction f with
  | zero => intro d c jobs m h; simp [reduceFuel] at h
  | succ f IH =>
    intro d c jobs m h
    rw [reduceFuel] at h
    unfold scanInputs at h
    have := scanAux_names _ (fun c2 m2 h2 => IH (d + 1) c2 jobs m2 h2) _ _ _ m h
    rw [this]
    exact narrows_map_input (narrows_prune c jobs)

/-- Claim C5 (confirmed).  Failure is the bare negative with no data by
the shape of every failing return in the source (all return literal nil,
embedded as none), and the three failure scenarios of the claim all reach
it: a pin referencing an absent version, an input with zero candidates,
and exhaustion of the branch iterator after all recursive attempts fail.
Every successful mapping covers exactly the input names, in order. -/
theorem claim_C5_failure_mode_and_coverage :
    (∀ (f d : Nat) (c : InputCandidates) (jobs : List Nat) (m : ResolvedInputs),
        reduceFuel f d c jobs = some (some m) →
        m.map Prod.fst = c.map (fun ic => ic.Input))
    ∧ Reduce [pinAbsentIn] 0 [] = none
    ∧ Reduce [zeroCandIn] 0 [] = none
    ∧ Reduce [exhaustIn, pinAbsentIn] 0 [] = none :=
  ⟨reduce_names, by decide, by decide, by decide⟩

/-- Witness for claim C5: the coverage conjunct applied to the concrete
run of claim C1's instance. -/
theorem claim_C5_witness :
    ([("a", 1), ("b", 10)] : ResolvedInputs).map Prod.fst
      = ([inputA, inputB].map (fun ic => ic.Input)) :=
  claim_C5_failure_mode_and_coverage.1 3 0 [inputA, inputB] [1, 2]
    [("a", 1), ("b", 10)] (by decide)

lemma prune_nil (c : InputCandidates) : pruneToCommonBuilds c [] = c := rfl

lemma getElemSome_lt {cs : InputCandidates} {j : Nat} {icj : InputVersionCandidates}
    (hj : cs[j]? = some icj) : j < cs.length := by
  by_contra hx
  rw [List.getElem?_eq_none (Nat.le_of_not_lt hx)] at hj
  cases hj

lemma Pin_get_ne (cs : InputCandidates) (i v j : Nat) (hij : i ≠ j) :
    (Pin cs i v)[j]? = cs[j]? := by
  unfold Pin
  cases cs[i]? with
  | none => rfl
  | some ic => exact List.getElem?_set_ne hij

lemma ForVersion_all_pin (vc : VersionCandidates) (p : Nat) :
    ∀ e ∈ ForVersion vc p, e.id = p := by
  intro e he
  have := List.mem_filter.mp he
  simpa using this.2

lemma ForVersion_eq_nil_of_not_mem (vc : VersionCandidates) (p : Nat)
    (h : p ∉ VersionIDs vc) : ForVersion vc p = [] := by
  rw [ForVersion, List.filter_eq_nil_iff]
  intro e he
  simp only [beq_iff_eq]
  intro habs
  exact h (habs ▸ List.mem_map_of_mem (fun e => e.id) he)

lemma baseResolve_get :
    ∀ (nc : InputCandidates) (m : ResolvedInputs), baseResolve nc = some m →
      ∀ (j : Nat) (icj : InputVersionCandidates), nc[j]? = some icj →
        ∃ vid, m[j]? = some (icj.Input, vid)
          ∧ (VersionIDs icj.VersionCandidates).head? = some vid := by
  intro nc
  induction nc with
  | nil =>
    intro m _ j icj hj
    rw [List.getElem?_eq_none (Nat.zero_le j)] at hj
    cases hj
  | cons ic rest IH =>
    intro m h j icj hj
    rw [baseResolve] at h
    cases h1 : (VersionIDs ic.VersionCandidates).head? with
    | none => rw [h1] at h; cases h
    | some vid0 =>
      rw [h1] at h
      cases h2 : baseResolve rest with
      | none => rw [h2] at h; cases h
      | some m2 =>
        rw [h2] at h
        simp only [Option.some_inj] at h
        cases j with
        | zero =>
          simp only [List.getElem?_cons_zero, Option.some_inj] at hj
          exact ⟨vid0, by simp [← h, ← hj], by rw [← hj]; exact h1⟩
        | succ j =>
          simp only [List.getElem?_cons_succ] at hj
          obtain ⟨vid, hv1, hv2⟩ := IH m2 h2 j icj hj
          exact ⟨vid, by simp [← h, hv1], hv2⟩

lemma baseResolve_none_of_nil :
    ∀ (nc : InputCandidates) (j : Nat) (icj : InputVersionCandidates),
      nc[j]? = some icj → icj.VersionCandidates = [] → baseResolve nc = none := by
  intro nc
  induction nc with
  | nil =>
    intro j icj hj
    rw [List.getElem?_eq_none (Nat.zero_le j)] at hj
    cases hj
  | cons ic rest IH =>
    intro j icj hj hnil
    cases j with
    | zero =>
      simp only [List.getElem?_cons_zero, Option.some_inj] at hj
      rw [baseResolve, hj, hnil]
      rfl
    | succ j =>
      simp only [List.getElem?_cons_succ] at hj
      rw [baseResolve, IH j icj hj hnil]
      cases (VersionIDs ic.VersionCandidates).head? <;> rfl

lemma branch_no_success (r : InputCandidates → Option (Option ResolvedInputs))
    (nc : InputCandidates) (i : Nat) (ic : InputVersionCandidates)
    (hr : ∀ (id : Nat) (m2 : ResolvedInputs), r (Pin nc i id) ≠ some (some m2)) :
    ∀ (iter : List Nat) (m : ResolvedInputs),
      branchVersions r nc i ic iter ≠ some (some m) := by
  intro iter
  induction iter with
  | nil => intro m h; simp [branchVersions] at h
  | cons id rest IH =>
    intro m h
    cases hrid : r (Pin nc i id) with
    | none => rw [branchVersions, hrid] at h; cases h
    | some o =>
      cases o with
      | none =>
        rw [branchVersions, hrid] at h
        exact IH m h
      | some m2 => exact hr id m2 hrid

lemma set_getElem_self {α : Type} (l : List α) (i : Nat) (a : α) (h : i < l.length) :
    (l.set i a)[i]? = some a :=
  List.getElem?_set_eq h

lemma Pin_get_self (nc : InputCandidates) (i v : Nat) (hd : i < nc.length) :
    (Pin nc i v)[i]?
      = some { nc.get ⟨i, hd⟩ with
          VersionCandidates := ForVersion (nc.get ⟨i, hd⟩).VersionCandidates v } := by
  rw [Pin_eq_set nc i v hd]
  exact set_getElem_self nc i _ hd

lemma branch_success (r : InputCandidates → Option (Option ResolvedInputs))
    (nc : InputCandidates) (i : Nat) (ic : InputVersionCandidates) :
    ∀ (iter : List Nat) (m : ResolvedInputs),
      branchVersions r nc i ic iter = some (some m) →
      ∃ id, r (Pin nc i id) = some (some m) := by
  intro iter
  induction iter with
  | nil => intro m h; simp [branchVersions] at h
  | cons id rest IH =>
    intro m h
    cases hrid : r (Pin nc i id) with
    | none => rw [branchVersions, hrid] at h; cases h
    | some o =>
      cases o with
      | none =>
        rw [branchVersions, hrid] at h
        exact IH m h
      | some m2 =>
        rw [branchVersions, hrid] at h
        dsimp only at h
        by_cases hn : IsNext ic id rest
        · rw [if_pos hn] at h
          simp only [Option.some_inj] at h
          exact ⟨id, by rw [hrid, h]⟩
        · rw [if_neg hn] at h
          exact IH m h

lemma base_pin_entry (p : Nat) (n : String) (j : Nat) (nc : InputCandidates)
    (m : ResolvedInputs) (icj : InputVersionCandidates)
    (hj : nc[j]? = some icj) (hname : icj.Input = n)
    (hQ : ∀ e ∈ icj.VersionCandidates, e.id = p)
    (h : baseResolve nc = some m) : m[j]? = some (n, p) := by
  obtain ⟨vid, hv1, hv2⟩ := baseResolve_get nc m h j icj hj
  have hvid : vid = p := by
    cases hvc : icj.VersionCandidates with
    | nil => rw [hvc] at hv2; simp [VersionIDs] at hv2
    | cons e rest =>
      rw [hvc] at hv2
      simp only [VersionIDs, List.map_cons, List.head?_cons, Option.some_inj] at hv2
      rw [← hv2]
      exact hQ e (hvc ▸ List.mem_cons_self _ _)
  rw [hv1, hname, hvid]

lemma scanAux_pin_kept (r : InputCandidates → Option (Option ResolvedInputs))
    (p : Nat) (n : String) (j : Nat) (hp : p ≠ 0)
    (hr : ∀ cs2 m2, PinAvailable p n j cs2 → r cs2 = some (some m2) →
      m2[j]? = some (n, p)) :
    ∀ (rem : Nat) (nc : InputCandidates) (i : Nat) (m : ResolvedInputs)
      (icj : InputVersionCandidates),
      nc[j]? = some icj → icj.PinnedVersionID = p → icj.Input = n →
      ((i ≤ j ∧ (p ∈ VersionIDs icj.VersionCandidates
          ∨ ∀ e ∈ icj.VersionCandidates, e.id = p))
        ∨ (∀ e ∈ icj.VersionCandidates, e.id = p)) →
      nc.length ≤ rem + i →
      scanAux r rem nc i = some (some m) → m[j]? = some (n, p) := by
  intro rem
  induction rem with
  | zero =>
    intro nc i m icj hj hpin hname hphase hrem h
    have hjlen : j < nc.length := getElemSome_lt hj
    have hQ : ∀ e ∈ icj.VersionCandidates, e.id = p := by
      rcases hphase with ⟨hij, _⟩ | hQ
      · omega
      · exact hQ
    simp only [scanAux, Option.some_inj] at h
    exact base_pin_entry p n j nc m icj hj hname hQ h
  | succ rem IH =>
    intro nc i m icj hj hpin hname hphase hrem h
    rw [scanAux] at h
    by_cases hd : i < nc.length
    · rw [dif_pos hd] at h
      by_cases hij : i = j
      · subst hij
        have hget : nc.get ⟨i, hd⟩ = icj := by
          have h0 : nc[i]? = some (nc.get ⟨i, hd⟩) := List.getElem?_eq_getElem hd
          rw [hj] at h0
          exact (Option.some_inj.mp h0).symm
        by_cases h1 : (lenVC (nc.get ⟨i, hd⟩).VersionCandidates == 1) = true
        · rw [if_pos h1] at h
          have hQ : ∀ e ∈ icj.VersionCandidates, e.id = p := by
            rcases hphase with ⟨_, hPQ⟩ | hQ
            · rcases hPQ with hP | hQ
              · have hlen1 : icj.VersionCandidates.length = 1 := by
                  have h1b := h1
                  rw [hget] at h1b
                  simpa [lenVC] using h1b
                have hlen2 : (VersionIDs icj.VersionCandidates).length = 1 := by
                  simp [VersionIDs, hlen1]
                obtain ⟨x, hx⟩ := List.length_eq_one.mp hlen2
                intro e2 he2
                have hmem : e2.id ∈ VersionIDs icj.VersionCandidates :=
                  List.mem_map_of_mem _ he2
                rw [hx] at hmem hP
                simp only [List.mem_singleton] at hmem hP
                rw [hmem]
                exact hP.symm
              · exact hQ
            · exact hQ
          exact IH nc (i + 1) m icj hj hpin hname (Or.inr hQ) (by omega) h
        · rw [if_neg h1] at h
          have h2 : ((nc.get ⟨i, hd⟩).PinnedVersionID != 0) = true := by
            rw [hget, hpin]
            simpa using hp
          rw [if_pos h2] at h
          refine IH (Pin nc i (nc.get ⟨i, hd⟩).PinnedVersionID) (i + 1) m
            ⟨icj.Input, icj.Passed, icj.UseEveryVersion, p, icj.ExistingBuildResolver,
              ForVersion icj.VersionCandidates p, icj.hasUsedResource⟩
            ?_ rfl hname (Or.inr (ForVersion_all_pin _ p)) ?_ h
          · rw [Pin_get_self nc i _ hd, hget]
            simp only [hpin]
          · rw [Pin_length]
            omega
      · have hstep :
            ∀ nc2 : InputCandidates, nc2[j]? = some icj → nc2.length = nc.length →
              scanAux r rem nc2 (i + 1) = some (some m) → m[j]? = some (n, p) := by
          intro nc2 hj2 hlen2 h2
          refine IH nc2 (i + 1) m icj hj2 hpin hname ?_ (by omega) h2
          rcases hphase with ⟨hile, hPQ⟩ | hQ
          · exact Or.inl ⟨by omega, hPQ⟩
          · exact Or.inr hQ
        by_cases h1 : (lenVC (nc.get ⟨i, hd⟩).VersionCandidates == 1) = true
        · rw [if_pos h1] at h
          exact hstep nc hj rfl h
        · rw [if_neg h1] at h
          by_cases h2 : ((nc.get ⟨i, hd⟩).PinnedVersionID != 0) = true
          · rw [if_pos h2] at h
            exact hstep (Pin nc i (nc.get ⟨i, hd⟩).PinnedVersionID)
              (by rw [Pin_get_ne nc i _ j hij]; exact hj) (Pin_length nc i _) h
          · rw [if_neg h2] at h
            obtain ⟨id, hid⟩ := branch_success r nc i (nc.get ⟨i, hd⟩) _ m h
            refine hr (Pin nc i id) m ⟨icj, ?_, hpin, hname, ?_⟩ hid
            · rw [Pin_get_ne nc i id j hij]
              exact hj
            · rcases hphase with ⟨_, hPQ⟩ | hQ
              · exact hPQ
              · exact Or.inr hQ
    · rw [dif_neg hd] at h
      have hjlen : j < nc.length := getElemSome_lt hj
      have hQ : ∀ e ∈ icj.VersionCandidates, e.id = p := by
        rcases hphase with ⟨hij, _⟩ | hQ
        · omega
        · exact hQ
      simp only [Option.some_inj] at h
      exact base_pin_entry p n j nc m icj hj hname hQ h

lemma scanAux_pin_absent (r : InputCandidates → Option (Option ResolvedInputs))
    (p : Nat) (j : Nat) (hp : p ≠ 0)
    (hr : ∀ cs2 m2, PinMissing p j cs2 → r cs2 ≠ some (some m2)) :
    ∀ (rem : Nat) (nc : InputCandidates) (i : Nat) (m : ResolvedInputs)
      (icj : InputVersionCandidates),
      nc[j]? = some icj → icj.PinnedVersionID = p →
      ((i ≤ j ∧ p ∉ VersionIDs icj.VersionCandidates
          ∧ icj.VersionCandidates.length ≠ 1)
        ∨ icj.VersionCandidates = []) →
      nc.length ≤ rem + i →
      scanAux r rem nc i ≠ some (some m) := by
  intro rem
  induction rem with
  | zero =>
    intro nc i m icj hj hpin hphase hrem h
    have hjlen : j < nc.length := getElemSome_lt hj
    have hnil : icj.VersionCandidates = [] := by
      rcases hphase with ⟨hij, _⟩ | hnil
      · omega
      · exact hnil
    simp only [scanAux, Option.some_inj] at h
    rw [baseResolve_none_of_nil nc j icj hj hnil] at h
    cases h
  | succ rem IH =>
    intro nc i m icj hj hpin hphase hrem h
    rw [scanAux] at h
    by_cases hd : i < nc.length
    · rw [dif_pos hd] at h
      by_cases hij : i = j
      · subst hij
        have hget : nc.get ⟨i, hd⟩ = icj := by
          have h0 : nc[i]? = some (nc.get ⟨i, hd⟩) := List.getElem?_eq_getElem hd
          rw [hj] at h0
          exact (Option.some_inj.mp h0).symm
        by_cases h1 : (lenVC (nc.get ⟨i, hd⟩).VersionCandidates == 1) = true
        · have hlen1 : icj.VersionCandidates.length = 1 := by
            have h1b := h1
            rw [hget] at h1b
            simpa [lenVC] using h1b
          rcases hphase with ⟨_, _, hne⟩ | hnil
          · exact hne hlen1
          · rw [hnil] at hlen1
            cases hlen1
        · rw [if_neg h1] at h
          have h2 : ((nc.get ⟨i, hd⟩).PinnedVersionID != 0) = true := by
            rw [hget, hpin]
            simpa using hp
          rw [if_pos h2] at h
          have hnil2 : ForVersion icj.VersionCandidates p = [] := by
            rcases hphase with ⟨_, hnm, _⟩ | hnil
            · exact ForVersion_eq_nil_of_not_mem _ p hnm
            · rw [hnil]
              rfl
          refine IH (Pin nc i (nc.get ⟨i, hd⟩).PinnedVersionID) (i + 1) m
            ⟨icj.Input, icj.Passed, icj.UseEveryVersion, p, icj.ExistingBuildResolver,
              ForVersion icj.VersionCandidates p, icj.hasUsedResource⟩
            ?_ rfl (Or.inr hnil2) ?_ h
          · rw [Pin_get_self nc i _ hd, hget]
            simp only [hpin]
          · rw [Pin_length]
            omega
      · have hstep :
            ∀ nc2 : InputCandidates, nc2[j]? = some icj → nc2.length = nc.length →
              scanAux r rem nc2 (i + 1) = some (some m) → False := by
          intro nc2 hj2 hlen2 h2
          refine IH nc2 (i + 1) m icj hj2 hpin ?_ (by omega) h2
          rcases hphase with ⟨hile, hrest⟩ | hnil
          · exact Or.inl ⟨by omega, hrest⟩
          · exact Or.inr hnil
        by_cases h1 : (lenVC (nc.get ⟨i, hd⟩).VersionCandidates == 1) = true
        · rw [if_pos h1] at h
          exact hstep nc hj rfl h
        · rw [if_neg h1] at h
          by_cases h2 : ((nc.get ⟨i, hd⟩).PinnedVersionID != 0) = true
          · rw [if_pos h2] at h
            exact hstep (Pin nc i (nc.get ⟨i, hd⟩).PinnedVersionID)
              (by rw [Pin_get_ne nc i _ j hij]; exact hj) (Pin_length nc i _) h
          · rw [if_neg h2] at h
            obtain ⟨id, hid⟩ := branch_success r nc i (nc.get ⟨i, hd⟩) _ m h
            refine hr (Pin nc i id) m ⟨icj, ?_, hpin, ?_⟩ hid
            · rw [Pin_get_ne nc i id j hij]
              exact hj
            · rcases hphase with ⟨_, hnm, hne⟩ | hnil
              · exact ⟨hnm, hne⟩
              · rw [hnil]
                exact ⟨by simp [VersionIDs], by simp⟩
    · rw [dif_neg hd] at h
      have hjlen : j < nc.length := getElemSome_lt hj
      have hnil : icj.VersionCandidates = [] := by
        rcases hphase with ⟨hij, _⟩ | hnil
        · omega
        · exact hnil
      simp only [Option.some_inj] at h
      rw [baseResolve_none_of_nil nc j icj hj hnil] at h
      cases h

lemma reduceFuel_pin_kept (p : Nat) (n : String) (j : Nat) (hp : p ≠ 0) :
    ∀ (f d : Nat) (cs : InputCandidates) (m : ResolvedInputs),
      PinAvailable p n j cs → reduceFuel f d cs [] = some (some m) →
      m[j]? = some (n, p) := by
  intro f
  induction f with
  | zero =>
    intro d cs m _ h
    rw [reduceFuel] at h
    cases h
  | succ f IH =>
    intro d cs m hPA h
    rw [reduceFuel] at h
    unfold scanInputs at h
    rw [prune_nil] at h
    obtain ⟨icj, hj, hpin, hname, hPQ⟩ := hPA
    exact scanAux_pin_kept _ p n j hp
      (fun cs2 m2 hPA2 h2 => IH (d + 1) cs2 m2 hPA2 h2)
      (cs.length - 0) cs 0 m icj hj hpin hname
      (Or.inl ⟨Nat.zero_le j, hPQ⟩) (by omega) h

lemma reduceFuel_pin_absent (p : Nat) (j : Nat) (hp : p ≠ 0) :
    ∀ (f d : Nat) (cs : InputCandidates) (m : ResolvedInputs),
      PinMissing p j cs → reduceFuel f d cs [] ≠ some (some m) := by
  intro f
  induction f with
  | zero =>
    intro d cs m _ h
    rw [reduceFuel] at h
    cases h
  | succ f IH =>
    intro d cs m hPM h
    rw [reduceFuel] at h
    unfold scanInputs at h
    rw [prune_nil] at h
    obtain ⟨icj, hj, hpin, hnm, hne⟩ := hPM
    exact scanAux_pin_absent _ p j hp
      (fun cs2 m2 hPM2 h2 => IH (d + 1) cs2 m2 hPM2 h2)
      (cs.length - 0) cs 0 m icj hj hpin
      (Or.inl ⟨Nat.zero_le j, hnm, hne⟩) (by omega) h

/-- Claim C3 (corrected, amended).  In the fragment where common build
pruning cannot interfere (empty jobs set, so candidate sets are never
narrowed behind the pin's back): for an input whose nonzero pin is among
its candidate ids, every success maps that input, positionally, to its
pin; for an input whose nonzero pin is absent from its candidate ids and
whose candidate count is not one, Reduce never succeeds.  The
counterexample theorem shows both caveats are necessary: with pruning the
pinned version can be silently dropped, and a one candidate set bypasses
the pin entirely. -/
theorem claim_C3_amended_pin_behaviour :
    (∀ (f d : Nat) (cs : InputCandidates) (j : Nat) (icj : InputVersionCandidates)
        (m : ResolvedInputs),
        cs[j]? = some icj → icj.PinnedVersionID ≠ 0 →
        icj.PinnedVersionID ∈ VersionIDs icj.VersionCandidates →
        reduceFuel f d cs [] = some (some m) →
        m[j]? = some (icj.Input, icj.PinnedVersionID))
    ∧ (∀ (f d : Nat) (cs : InputCandidates) (j : Nat) (icj : InputVersionCandidates)
        (m : ResolvedInputs),
        cs[j]? = some icj → icj.PinnedVersionID ≠ 0 →
        icj.PinnedVersionID ∉ VersionIDs icj.VersionCandidates →
        icj.VersionCandidates.length ≠ 1 →
        reduceFuel f d cs [] ≠ some (some m)) := by
  constructor
  · intro f d cs j icj m hj hp hmem h
    exact reduceFuel_pin_kept icj.PinnedVersionID icj.Input j hp f d cs m
      ⟨icj, hj, rfl, rfl, Or.inl hmem⟩ h
  · intro f d cs j icj m hj hp hmem hlen
    exact reduceFuel_pin_absent icj.PinnedVersionID j hp f d cs m
      ⟨icj, hj, rfl, hmem, hlen⟩

/-- Witness for claim C3 on concrete single input states: pin five among
candidates five and six resolves to five; pin seven absent from the same
candidates never succeeds. -/
theorem claim_C3_witness :
    ([("p", 5)] : ResolvedInputs)[0]?
        = some ((⟨"p", [], false, 5, noRes, [⟨5, []⟩, ⟨6, []⟩], none⟩ :
            InputVersionCandidates).Input, 5)
    ∧ reduceFuel 2 0 [⟨"q", [], false, 7, noRes, [⟨5, []⟩, ⟨6, []⟩], none⟩] []
        ≠ some (some [("q", 5)]) := by
  constructor
  · exact claim_C3_amended_pin_behaviour.1 2 0
      [⟨"p", [], false, 5, noRes, [⟨5, []⟩, ⟨6, []⟩], none⟩] 0
      ⟨"p", [], false, 5, noRes, [⟨5, []⟩, ⟨6, []⟩], none⟩ [("p", 5)]
      rfl (by decide) (by decide) (by decide)
  · exact claim_C3_amended_pin_behaviour.2 2 0
      [⟨"q", [], false, 7, noRes, [⟨5, []⟩, ⟨6, []⟩], none⟩] 0
      ⟨"q", [], false, 7, noRes, [⟨5, []⟩, ⟨6, []⟩], none⟩ [("q", 5)]
      rfl (by decide) (by decide) (by decide)

/-- Claim C1 (code_bug).  With every candidate version of both inputs
carrying a recorded build for job 1, job 1 in both Passed sets, job 1 in
the jobs argument, and no pins, Reduce succeeds with a=1 and b=10 even
though no recorded build of job 1 used version 1 of a together with
version 10 of b: the prune for job 2 removes the versions that carried
the other builds of job 1, and the base case never rechecks job 1, so the
claimed co-occurrence property fails on the code. -/
theorem claim_C1_passed_constraint_violated :
    Reduce [inputA, inputB] 0 [1, 2] = some [("a", 1), ("b", 10)]
    ∧ (1 ∈ inputA.Passed ∧ 1 ∈ inputB.Passed)
    ∧ (∀ e1 ∈ inputA.VersionCandidates, ∀ e2 ∈ inputB.VersionCandidates,
        e1.id = 1 → e2.id = 10 → ∀ b ∈ buildsFor e1 1, b ∉ buildsFor e2 1) := by
  decide

/-- Witness for claim C1: the no co-occurrence conjunct applied to the
resolved versions and build one of job one. -/
theorem claim_C1_witness :
    (1 : Nat) ∉ buildsFor ⟨10, [(1, [2]), (2, [11])]⟩ 1 :=
  claim_C1_passed_constraint_violated.2.2 ⟨1, [(1, [1]), (2, [11])]⟩ (by decide)
    ⟨10, [(1, [2]), (2, [11])]⟩ (by decide) rfl rfl 1 (by decide)

/-- Claim C2 (code_bug).  On the inputX and inputY instance no assignment
of one candidate per input satisfies both passed constraints, so the
brute force oracle answers unsatisfiable, yet Reduce reports success:
the success and failure outcomes do not agree with the oracle. -/
theorem claim_C2_oracle_disagreement :
    oracleSat [inputX, inputY] = false
    ∧ Reduce [inputX, inputY] 0 [5, 6] = some [("x", 3), ("y", 30)] := by
  decide

/-- Claim C3, counterexample.  The pin 5 of input a is present among its
candidate versions, yet Reduce succeeds mapping a to version 1: the
common build prune runs before the pin is consulted, drops the pinned
version, leaves a singleton, and the scan treats the input as already
reduced without ever applying the pin. -/
theorem claim_C3_counterexample :
    pinnedA.PinnedVersionID = 5
    ∧ 5 ∈ VersionIDs pinnedA.VersionCandidates
    ∧ Reduce [pinnedA, partnerB] 0 [1] = some [("a", 1), ("b", 10)] := by
  decide

/-- Claim C7, counterexample.  Two jobs interleave: the prune for job 2
removes whole versions of inputs a and c, which changes the build sets
that the prune for job 1 intersects, so running pruneToCommonBuilds a
second time with the same jobs removes a further version of input b.
One pass is not a fixed point. -/
theorem claim_C7_counterexample :
    (pruneToCommonBuilds (pruneToCommonBuilds [idemA, idemB, idemC] [1, 2]) [1, 2]).map
        (fun ic => ic.VersionCandidates)
      ≠ (pruneToCommonBuilds [idemA, idemB, idemC] [1, 2]).map
        (fun ic => ic.VersionCandidates) := by
  decide

lemma map_eq_self_of {α : Type} (f : α → α) :
    ∀ (l : List α), (∀ a ∈ l, f a = a) → l.map f = l
  | [], _ => rfl
  | x :: xs, h => by
    rw [List.map_cons, h x (List.mem_cons_self _ _),
      map_eq_self_of f xs (fun a ha => h a (List.mem_cons_of_mem _ ha))]

lemma mem_BuildIDs (vc : VersionCandidates) (j b : Nat) :
    b ∈ BuildIDs vc j ↔ ∃ e ∈ vc, b ∈ buildsFor e j := by
  simp [BuildIDs, List.mem_flatten, List.mem_map]

lemma commonFold_some_mem (j b : Nat) :
    ∀ (cs : InputCandidates) (cur : List Nat),
      b ∈ (cs.foldl (commonStep j) (some cur)).getD []
      ↔ (b ∈ cur ∧ ∀ ic ∈ cs, BuildIDs ic.VersionCandidates j ≠ [] →
          b ∈ BuildIDs ic.VersionCandidates j) := by
  intro cs
  induction cs with
  | nil => intro cur; simp
  | cons ic rest IH =>
    intro cur
    rw [List.foldl_cons]
    by_cases hE : (BuildIDs ic.VersionCandidates j).isEmpty = true
    · have hnil : BuildIDs ic.VersionCandidates j = [] := by
        simpa using hE
      have hstep : commonStep j (some cur) ic = some cur := by
        simp [commonStep, hE]
      rw [hstep, IH cur]
      constructor
      · rintro ⟨h1, h2⟩
        refine ⟨h1, ?_⟩
        intro ic2 hm h3
        rcases List.mem_cons.mp hm with rfl | hm
        · exact absurd hnil h3
        · exact h2 ic2 hm h3
      · rintro ⟨h1, h2⟩
        exact ⟨h1, fun ic2 hm h3 => h2 ic2 (List.mem_cons_of_mem _ hm) h3⟩
    · have hne : BuildIDs ic.VersionCandidates j ≠ [] := by
        simpa using hE
      have hstep : commonStep j (some cur) ic
          = some (cur.filter (fun b2 => (BuildIDs ic.VersionCandidates j).contains b2)) := by
        simp [commonStep, hE]
      rw [hstep, IH _]
      rw [List.mem_filter]
      constructor
      · rintro ⟨⟨h1, h1b⟩, h2⟩
        refine ⟨h1, ?_⟩
        intro ic2 hm h3
        rcases List.mem_cons.mp hm with rfl | hm
        · simpa using h1b
        · exact h2 ic2 hm h3
      · rintro ⟨h1, h2⟩
        refine ⟨⟨h1, ?_⟩, fun ic2 hm h3 => h2 ic2 (List.mem_cons_of_mem _ hm) h3⟩
        simpa using h2 ic (List.mem_cons_self _ _) hne

lemma mem_commonBuildIDs (cs : InputCandidates) (j b : Nat) :
    b ∈ commonBuildIDs cs j
    ↔ ((∃ ic ∈ cs, BuildIDs ic.VersionCandidates j ≠ [])
        ∧ ∀ ic ∈ cs, BuildIDs ic.VersionCandidates j ≠ [] →
            b ∈ BuildIDs ic.VersionCandidates j) := by
  unfold commonBuildIDs
  induction cs with
  | nil => simp
  | cons ic rest IH =>
    rw [List.foldl_cons]
    by_cases hE : (BuildIDs ic.VersionCandidates j).isEmpty = true
    · have hnil : BuildIDs ic.VersionCandidates j = [] := by
        simpa using hE
      have hstep : commonStep j none ic = none := by
        simp [commonStep, hE]
      rw [hstep, IH]
      constructor
      · rintro ⟨⟨ic2, hm2, hne2⟩, h2⟩
        refine ⟨⟨ic2, List.mem_cons_of_mem _ hm2, hne2⟩, ?_⟩
        intro ic3 hm3 h3
        rcases List.mem_cons.mp hm3 with rfl | hm3
        · exact absurd hnil h3
        · exact h2 ic3 hm3 h3
      · rintro ⟨⟨ic2, hm2, hne2⟩, h2⟩
        rcases List.mem_cons.mp hm2 with rfl | hm2
        · exact absurd hnil hne2
        · exact ⟨⟨ic2, hm2, hne2⟩,
            fun ic3 hm3 h3 => h2 ic3 (List.mem_cons_of_mem _ hm3) h3⟩
    · have hne : BuildIDs ic.VersionCandidates j ≠ [] := by
        simpa using hE
      have hstep : commonStep j none ic = some (BuildIDs ic.VersionCandidates j) := by
        simp [commonStep, hE]
      rw [hstep, commonFold_some_mem]
      constructor
      · rintro ⟨h1, h2⟩
        refine ⟨⟨ic, List.mem_cons_self _ _, hne⟩, ?_⟩
        intro ic3 hm3 h3
        rcases List.mem_cons.mp hm3 with rfl | hm3
        · exact h1
        · exact h2 ic3 hm3 h3
      · rintro ⟨_, h2⟩
        exact ⟨h2 ic (List.mem_cons_self _ _) hne,
          fun ic3 hm3 h3 => h2 ic3 (List.mem_cons_of_mem _ hm3) h3⟩

/-- Claim C7 (corrected, amended).  For a jobs set consisting of a single
job, one pass of the common build prune is a fixed point: every version
that survives the pass keeps, for that job, a build inside the common set
recomputed on the pruned state, because any surviving input still lists
that build through the versions the shared build kept alive.  The
counterexample theorem shows the restriction to one job is necessary:
with two jobs the second job removes whole versions and changes the
first job build sets, so a second pass prunes further. -/
theorem claim_C7_amended_single_job_idempotent :
    ∀ (cs : InputCandidates) (j : Nat),
      pruneToCommonBuilds (pruneToCommonBuilds cs [j]) [j]
        = pruneToCommonBuilds cs [j] := by
  intro cs j
  have h1 : pruneToCommonBuilds cs [j] = pruneStep cs j (commonBuildIDs cs j) := by
    rw [prune_cons, prune_nil]
  rw [h1, prune_cons, prune_nil]
  apply map_eq_self_of
  intro ic1 hic1
  obtain ⟨ic0, hic0, rfl⟩ := List.mem_map.mp hic1
  have hfix : PruneVersionsOfOtherBuildIDs
      (PruneVersionsOfOtherBuildIDs ic0.VersionCandidates j (commonBuildIDs cs j)) j
      (commonBuildIDs (pruneStep cs j (commonBuildIDs cs j)) j)
      = PruneVersionsOfOtherBuildIDs ic0.VersionCandidates j (commonBuildIDs cs j) := by
    apply List.filter_eq_self.mpr
    intro e he
    have he0 := List.mem_filter.mp he
    by_cases hbe : buildsFor e j = []
    · simp [hbe]
    · have hEfalse : (buildsFor e j).isEmpty = false := by
        simpa using hbe
      have hany : (buildsFor e j).any
          (fun b => (commonBuildIDs cs j).contains b) = true := by
        have hpred := he0.2
        rw [Bool.or_eq_true] at hpred
        rcases hpred with hcontra | hok
        · rw [hEfalse] at hcontra
          cases hcontra
        · exact hok
      obtain ⟨b0, hb0e, hb0K⟩ := List.any_eq_true.mp hany
      have hb0K2 : b0 ∈ commonBuildIDs cs j := by
        simpa using hb0K
      have hKchar := (mem_commonBuildIDs cs j b0).mp hb0K2
      have hb0K1 : b0 ∈ commonBuildIDs (pruneStep cs j (commonBuildIDs cs j)) j := by
        rw [mem_commonBuildIDs]
        constructor
        · have hmem1 : ({ ic0 with VersionCandidates := PruneVersionsOfOtherBuildIDs ic0.VersionCandidates j (commonBuildIDs cs j) } : InputVersionCandidates) ∈ pruneStep cs j (commonBuildIDs cs j) :=
            List.mem_map_of_mem _ hic0
          exact ⟨_, hmem1,
            List.ne_nil_of_mem ((mem_BuildIDs _ j b0).mpr ⟨e, he, hb0e⟩)⟩
        · intro ic1x hm1x hne1x
          obtain ⟨ic0x, hic0x, rfl⟩ := List.mem_map.mp hm1x
          have hne0x : BuildIDs ic0x.VersionCandidates j ≠ [] := by
            obtain ⟨bx, hbx⟩ := List.exists_mem_of_ne_nil _ hne1x
            obtain ⟨ex, hex, hbex⟩ := (mem_BuildIDs _ j bx).mp hbx
            have hex0 : ex ∈ ic0x.VersionCandidates := (List.mem_filter.mp hex).1
            exact List.ne_nil_of_mem ((mem_BuildIDs _ j bx).mpr ⟨ex, hex0, hbex⟩)
          have hb0in : b0 ∈ BuildIDs ic0x.VersionCandidates j :=
            hKchar.2 ic0x hic0x hne0x
          obtain ⟨e2, he2, hb0e2⟩ := (mem_BuildIDs _ j b0).mp hb0in
          have he2surv : e2 ∈ PruneVersionsOfOtherBuildIDs ic0x.VersionCandidates j
              (commonBuildIDs cs j) := by
            rw [PruneVersionsOfOtherBuildIDs, List.mem_filter]
            refine ⟨he2, ?_⟩
            rw [Bool.or_eq_true]
            right
            rw [List.any_eq_true]
            exact ⟨b0, hb0e2, by simpa using hb0K2⟩
          exact (mem_BuildIDs _ j b0).mpr ⟨e2, he2surv, hb0e2⟩
      rw [Bool.or_eq_true]
      right
      rw [List.any_eq_true]
      exact ⟨b0, hb0e, by simpa using hb0K1⟩
  dsimp only
  rw [hfix]

/-- Claim C8 (confirmed).  For any input whose cache field is in a state
the source can produce (never written, or holding the computed value),
HasUsedResource returns UseEveryVersion combined with ExistsForResource,
the receiver copy it returns has the cache set to that value, a repeated
call on that copy returns the same value, and eager precomputation at
construction yields the same observable answer. -/
theorem claim_C8_has_used_resource :
    ∀ ic : InputVersionCandidates,
      ic.hasUsedResource = none ∨ ic.hasUsedResource = some (hasUsedResourceValue ic) →
      (HasUsedResource ic).1
          = (ic.UseEveryVersion && ic.ExistingBuildResolver.ExistsForResource)
      ∧ (HasUsedResource ic).2.hasUsedResource = some (HasUsedResource ic).1
      ∧ (HasUsedResource ((HasUsedResource ic).2)).1 = (HasUsedResource ic).1
      ∧ (HasUsedResource
            { ic with hasUsedResource := some (hasUsedResourceValue ic) }).1
          = (HasUsedResource ic).1 := by
  intro ic h
  rcases h with h | h <;>
    simp [HasUsedResource, hasUsedResourceValue, h]

/-- Witness for claim C8 at a concrete input with an unwritten cache. -/
theorem claim_C8_witness :
    (HasUsedResource (mkIn "m" [] [])).1
      = ((mkIn "m" [] []).UseEveryVersion
          && (mkIn "m" [] []).ExistingBuildResolver.ExistsForResource) :=
  (claim_C8_has_used_resource (mkIn "m" [] []) (Or.inl rfl)).1

/-- Claim C4 (confirmed).  Sequential consumption on a single input with
UseEveryVersion, candidates oldest to newest 1, 2, 3 (iteration order
newest first, per the preference order of spec section 3, under which
Peek yields the next older version).  With version 2 consumed the
resolver picks 3; with a newer version 4 also present it still picks 3
rather than skipping ahead; it picks 1 only when no candidate version was
ever consumed (quantified over every history on the three candidates);
and IsNext decides acceptance by exactly the ordered cascade of the
claim. -/
theorem claim_C4_sequential_consumption :
    Reduce [seqInput (exThree false true false) true [⟨3, []⟩, ⟨2, []⟩, ⟨1, []⟩]] 0 []
        = some [("i", 3)]
    ∧ Reduce [seqInput (exThree false true false) true
          [⟨4, []⟩, ⟨3, []⟩, ⟨2, []⟩, ⟨1, []⟩]] 0 []
        = some [("i", 3)]
    ∧ (∀ e1 e2 e3 er : Bool,
        Reduce [seqInput (exThree e1 e2 e3) er [⟨3, []⟩, ⟨2, []⟩, ⟨1, []⟩]] 0 []
            = some [("i", 1)] →
          e1 = false ∧ e2 = false ∧ e3 = false)
    ∧ (∀ (ic : InputVersionCandidates) (v : Nat) (iter : List Nat),
        ((HasUsedResource ic).1 = false → IsNext ic v iter = true)
        ∧ (ic.ExistingBuildResolver.ExistsForVersion v = true → IsNext ic v iter = true)
        ∧ (iter.head? = none → IsNext ic v iter = true)
        ∧ (∀ older, (HasUsedResource ic).1 = true →
            ic.ExistingBuildResolver.ExistsForVersion v = false →
            iter.head? = some older →
            IsNext ic v iter = ic.ExistingBuildResolver.ExistsForVersion older)) := by
  refine ⟨by decide, by decide, by decide, ?_⟩
  intro ic v iter
  refine ⟨fun h => by simp [IsNext, h], fun h => by simp [IsNext, h], ?_, ?_⟩
  · intro h
    simp [IsNext, h]
  · intro older h1 h2 h3
    simp [IsNext, h1, h2, h3]

/-- Witness for claim C4: the cascade conjunct applied at a concrete
input whose history is empty, and the picked version conjunct applied on
its stated premise. -/
theorem claim_C4_witness :
    IsNext (mkIn "m" [] []) 9 [] = true
    ∧ (false = false ∧ true = false ∧ false = false → False) := by
  constructor
  · exact (claim_C4_sequential_consumption.2.2.2 (mkIn "m" [] []) 9 []).1 rfl
  · intro h
    exact absurd h.2.1 (by decide)

/-- Claim C9 (confirmed).  A zero pin field is no pin: at an input whose
PinnedVersionID is zero and whose candidate count is not one, the scan
takes the branch path, iterating over every candidate version; on the
concrete freeZeroPin instance the newer candidate 7 is rejected by
sequential consumption and the search moves on to 5, demonstrating the
walk over the whole candidate list.  A pin to an actual version id zero
is therefore not expressible. -/
theorem claim_C9_zero_pin_is_no_pin :
    (∀ (r : InputCandidates → Option (Option ResolvedInputs))
        (nc : InputCandidates) (i : Nat) (h : i < nc.length),
        (nc.get ⟨i, h⟩).PinnedVersionID = 0 →
        lenVC (nc.get ⟨i, h⟩).VersionCandidates ≠ 1 →
        scanInputs r nc i
          = branchVersions r nc i (nc.get ⟨i, h⟩)
              (VersionIDs (nc.get ⟨i, h⟩).VersionCandidates))
    ∧ Reduce [freeZeroPin] 0 [] = some [("x", 5)] := by
  constructor
  · intro r nc i h hpin hlen
    have hrem : nc.length - i = (nc.length - i - 1) + 1 := by omega
    rw [scanInputs, hrem, scanAux, dif_pos h]
    have h1 : (lenVC (nc.get ⟨i, h⟩).VersionCandidates == 1) = false := by
      simp only [lenVC, beq_eq_false_iff_ne, ne_eq]
      exact hlen
    have h2 : ((nc.get ⟨i, h⟩).PinnedVersionID != 0) = false := by
      simp only [bne_eq_false_iff_eq]
      exact hpin
    simp only [h1, h2]
    simp
  · decide

/-- Witness for claim C9 at the concrete instance. -/
theorem claim_C9_witness :
    scanInputs (fun _ => some none) [freeZeroPin] 0
      = branchVersions (fun _ => some none) [freeZeroPin] 0 freeZeroPin
          (VersionIDs freeZeroPin.VersionCandidates) :=
  claim_C9_zero_pin_is_no_pin.1 (fun _ => some none) [freeZeroPin] 0
    (by decide) (by decide) (by decide)

lemma readRef_append_lt (σ τ : Store) (r : Ref) (h : r < σ.length) :
    readRef (σ ++ τ) r = readRef σ r := by
  unfold readRef
  rw [List.getElem?_append_left h]

lemma readRef_append_self (σ : Store) (a : InputCandidates) :
    readRef (σ ++ [a]) σ.length = a := by
  unfold readRef
  rw [List.getElem?_concat_length]
  rfl

lemma length_writeElem (σ : Store) (r : Ref) (i : Nat) (ic : InputVersionCandidates) :
    (writeElem σ r i ic).length = σ.length := by
  simp [writeElem]

lemma readRef_writeElem_ne (σ : Store) (r : Ref) (i : Nat)
    (ic : InputVersionCandidates) (r2 : Ref) (h : r2 ≠ r) :
    readRef (writeElem σ r i ic) r2 = readRef σ r2 := by
  unfold writeElem readRef
  rw [List.getElem?_set_ne (fun hx => h hx.symm)]

lemma readRef_writeElem_self (σ : Store) (r : Ref) (i : Nat)
    (ic : InputVersionCandidates) (h : r < σ.length) :
    readRef (writeElem σ r i ic) r = (readRef σ r).set i ic := by
  unfold writeElem readRef
  rw [List.getElem?_set_self h]
  rfl

lemma set_get_self {α : Type} (l : List α) (n : Nat) (h : n < l.length) :
    l.set n (l.get ⟨n, h⟩) = l := by
  apply List.ext_getElem?
  intro k
  by_cases hk : k = n
  · subst hk
    rw [List.getElem?_set_self (by simpa using h), List.getElem?_eq_getElem h]
    rfl
  · rw [List.getElem?_set_ne (fun hx => hk hx.symm)]

lemma PinSt_length (σ : Store) (r : Ref) (i v : Nat) :
    (PinSt σ r i v).length = σ.length := by
  unfold PinSt
  cases (readRef σ r)[i]? with
  | none => rfl
  | some ic => exact length_writeElem σ r i _

lemma PinSt_frame (σ : Store) (r : Ref) (i v : Nat) (r2 : Ref) (h : r2 ≠ r) :
    readRef (PinSt σ r i v) r2 = readRef σ r2 := by
  unfold PinSt
  cases (readRef σ r)[i]? with
  | none => rfl
  | some ic => exact readRef_writeElem_ne σ r i _ r2 h

lemma readRef_PinSt_self (σ : Store) (r : Ref) (i v : Nat) (h : r < σ.length) :
    readRef (PinSt σ r i v) r = Pin (readRef σ r) i v := by
  unfold PinSt Pin
  cases (readRef σ r)[i]? with
  | none => rfl
  | some ic => exact readRef_writeElem_self σ r i _ h

lemma UnpinSt_length (σ : Store) (r : Ref) (i : Nat) (ic : InputVersionCandidates) :
    (UnpinSt σ r i ic).length = σ.length :=
  length_writeElem σ r i ic

lemma UnpinSt_frame (σ : Store) (r : Ref) (i : Nat) (ic : InputVersionCandidates)
    (r2 : Ref) (h : r2 ≠ r) :
    readRef (UnpinSt σ r i ic) r2 = readRef σ r2 :=
  readRef_writeElem_ne σ r i ic r2 h

lemma readRef_UnpinSt_self (σ : Store) (r : Ref) (i : Nat)
    (ic : InputVersionCandidates) (h : r < σ.length) :
    readRef (UnpinSt σ r i ic) r = (readRef σ r).set i ic :=
  readRef_writeElem_self σ r i ic h

lemma Pin_set_restore (nc : InputCandidates) (i id : Nat)
    (ic : InputVersionCandidates) (hset : nc.set i ic = nc) :
    (Pin nc i id).set i ic = nc := by
  unfold Pin
  cases nc[i]? with
  | none => exact hset
  | some icx => rw [List.set_set]; exact hset

lemma pruneLoopSt_length (jobID : Nat) (common : List Nat) :
    ∀ (rem : Nat) (σ : Store) (r : Ref) (i : Nat),
      (pruneLoopSt jobID common rem σ r i).length = σ.length := by
  intro rem
  induction rem with
  | zero => intro σ r i; rfl
  | succ rem IH =>
    intro σ r i
    rw [pruneLoopSt]
    cases (readRef σ r)[i]? with
    | none => rfl
    | some ic => rw [IH, length_writeElem]

lemma pruneLoopSt_frame (jobID : Nat) (common : List Nat) :
    ∀ (rem : Nat) (σ : Store) (r : Ref) (i : Nat) (r2 : Ref), r2 ≠ r →
      readRef (pruneLoopSt jobID common rem σ r i) r2 = readRef σ r2 := by
  intro rem
  induction rem with
  | zero => intro σ r i r2 _; rfl
  | succ rem IH =>
    intro σ r i r2 h
    rw [pruneLoopSt]
    cases (readRef σ r)[i]? with
    | none => rfl
    | some ic => rw [IH _ _ _ _ h, readRef_writeElem_ne σ r i _ r2 h]

lemma pruneLoopSt_readRef (jobID : Nat) (common : List Nat) :
    ∀ (rem : Nat) (σ : Store) (r : Ref) (i : Nat), r < σ.length →
      (readRef σ r).length ≤ rem + i →
      ∀ k, (readRef (pruneLoopSt jobID common rem σ r i) r)[k]?
        = if k < i then (readRef σ r)[k]?
          else ((readRef σ r)[k]?).map (pruneUpd jobID common) := by
  intro rem
  induction rem with
  | zero =>
    intro σ r i _ hrem k
    by_cases hk : k < i
    · simp [pruneLoopSt, hk]
    · have hnone : (readRef σ r)[k]? = none :=
        List.getElem?_eq_none (by omega)
      simp [pruneLoopSt, hk, hnone]
  | succ rem IH =>
    intro σ r i hr hrem k
    rw [pruneLoopSt]
    cases hi : (readRef σ r)[i]? with
    | none =>
      have hlen : (readRef σ r).length ≤ i := by
        by_contra hx
        rw [List.getElem?_eq_getElem (Nat.lt_of_not_le hx)] at hi
        cases hi
      by_cases hk : k < i
      · simp [hk]
      · have hnone : (readRef σ r)[k]? = none :=
          List.getElem?_eq_none (by omega)
        simp [hk, hnone]
    | some ic =>
      have hilt : i < (readRef σ r).length := by
        by_contra hx
        rw [List.getElem?_eq_none (Nat.le_of_not_lt hx)] at hi
        cases hi
      have harr2 : readRef (writeElem σ r i (pruneUpd jobID common ic)) r
          = (readRef σ r).set i (pruneUpd jobID common ic) :=
        readRef_writeElem_self σ r i _ hr
      have hlen2 : r < (writeElem σ r i (pruneUpd jobID common ic)).length := by
        rw [length_writeElem]; exact hr
      have hrem2 : (readRef (writeElem σ r i (pruneUpd jobID common ic)) r).length
          ≤ rem + (i + 1) := by
        rw [harr2, List.length_set]; omega
      have hIH := IH (writeElem σ r i (pruneUpd jobID common ic)) r (i + 1) hlen2 hrem2 k
      rw [hIH, harr2]
      by_cases hk : k < i
      · have h1 : k < i + 1 := by omega
        rw [if_pos h1, if_pos hk, List.getElem?_set_ne (by omega)]
      · by_cases hk2 : k = i
        · subst hk2
          rw [if_pos (by omega), if_neg hk, List.getElem?_set_self hilt, hi]
          rfl
        · have h1 : ¬ k < i + 1 := by omega
          rw [if_neg h1, if_neg hk, List.getElem?_set_ne (by omega)]

lemma pruneStep_eq_map (cs : InputCandidates) (jobID : Nat) (common : List Nat) :
    pruneStep cs jobID common = cs.map (pruneUpd jobID common) := rfl

lemma pruneJobSt_length (σ : Store) (r : Ref) (jobID : Nat) :
    (pruneJobSt σ r jobID).length = σ.length :=
  pruneLoopSt_length _ _ _ σ r 0

lemma pruneJobSt_frame (σ : Store) (r : Ref) (jobID : Nat) (r2 : Ref) (h : r2 ≠ r) :
    readRef (pruneJobSt σ r jobID) r2 = readRef σ r2 :=
  pruneLoopSt_frame _ _ _ σ r 0 r2 h

lemma readRef_pruneJobSt (σ : Store) (r : Ref) (jobID : Nat) (h : r < σ.length) :
    readRef (pruneJobSt σ r jobID) r
      = pruneStep (readRef σ r) jobID (commonBuildIDs (readRef σ r) jobID) := by
  rw [pruneStep_eq_map]
  unfold pruneJobSt
  apply List.ext_getElem?
  intro k
  rw [pruneLoopSt_readRef _ _ _ σ r 0 h (by omega) k]
  rw [if_neg (by omega), List.getElem?_map]

lemma pruneFold_spec (r : Ref) :
    ∀ (jobs : List Nat) (σ : Store), r < σ.length →
      readRef (jobs.foldl (fun σ2 jobID => pruneJobSt σ2 r jobID) σ) r
          = pruneToCommonBuilds (readRef σ r) jobs
      ∧ (jobs.foldl (fun σ2 jobID => pruneJobSt σ2 r jobID) σ).length = σ.length
      ∧ ∀ r2 : Ref, r2 ≠ r →
          readRef (jobs.foldl (fun σ2 jobID => pruneJobSt σ2 r jobID) σ) r2
            = readRef σ r2 := by
  intro jobs
  induction jobs with
  | nil =>
    intro σ _
    exact ⟨(prune_nil _).symm, rfl, fun _ _ => rfl⟩
  | cons j rest IH =>
    intro σ hr
    rw [List.foldl_cons]
    have hr2 : r < (pruneJobSt σ r j).length := by
      rw [pruneJobSt_length]; exact hr
    obtain ⟨hA, hB, hC⟩ := IH (pruneJobSt σ r j) hr2
    refine ⟨?_, ?_, ?_⟩
    · rw [hA, readRef_pruneJobSt σ r j hr, prune_cons]
    · rw [hB, pruneJobSt_length]
    · intro r2 hne
      rw [hC r2 hne, pruneJobSt_frame σ r j r2 hne]

lemma pruneToCommonBuildsSt_spec (σ : Store) (rc : Ref) (jobs : List Nat)
    (hrc : rc < σ.length) :
    (pruneToCommonBuildsSt σ rc jobs).2 = σ.length
    ∧ (pruneToCommonBuildsSt σ rc jobs).1.length = σ.length + 1
    ∧ readRef (pruneToCommonBuildsSt σ rc jobs).1 (pruneToCommonBuildsSt σ rc jobs).2
        = pruneToCommonBuilds (readRef σ rc) jobs
    ∧ ∀ r2 < σ.length,
        readRef (pruneToCommonBuildsSt σ rc jobs).1 r2 = readRef σ r2 := by
  have hlen1 : σ.length < (σ ++ [readRef σ rc]).length := by
    rw [List.length_append]
    simp
  obtain ⟨hA, hB, hC⟩ := pruneFold_spec σ.length jobs (σ ++ [readRef σ rc]) hlen1
  refine ⟨rfl, ?_, ?_, ?_⟩
  · show (jobs.foldl _ (σ ++ [readRef σ rc])).length = σ.length + 1
    rw [hB, List.length_append]
    simp
  · show readRef (jobs.foldl _ (σ ++ [readRef σ rc])) σ.length = _
    rw [hA, readRef_append_self]
  · intro r2 hr2
    show readRef (jobs.foldl _ (σ ++ [readRef σ rc])) r2 = readRef σ r2
    rw [hC r2 (Nat.ne_of_lt hr2), readRef_append_lt σ _ r2 hr2]

lemma branchSt_spec (reduceNext : Store → Ref → Option (Option ResolvedInputs) × Store)
    (reduceNextPure : InputCandidates → Option (Option ResolvedInputs))
    (rn : Ref) (i : Nat) (ic : InputVersionCandidates) (nc : InputCandidates)
    (hc : ∀ σ2 : Store, rn < σ2.length →
      (reduceNext σ2 rn).1 = reduceNextPure (readRef σ2 rn))
    (hf : ∀ σ2 : Store, rn < σ2.length →
      σ2.length ≤ (reduceNext σ2 rn).2.length
      ∧ ∀ r2 < σ2.length, readRef (reduceNext σ2 rn).2 r2 = readRef σ2 r2)
    (hset : nc.set i ic = nc) :
    ∀ (iter : List Nat) (σ : Store), rn < σ.length → readRef σ rn = nc →
      ((branchVersionsSt reduceNext rn i ic iter σ).1
          = branchVersions reduceNextPure nc i ic iter)
      ∧ σ.length ≤ (branchVersionsSt reduceNext rn i ic iter σ).2.length
      ∧ ∀ r2 < σ.length, r2 ≠ rn →
          readRef (branchVersionsSt reduceNext rn i ic iter σ).2 r2
            = readRef σ r2 := by
  intro iter
  induction iter with
  | nil =>
    intro σ _ _
    exact ⟨rfl, Nat.le_refl _, fun _ _ _ => rfl⟩
  | cons id rest IH =>
    intro σ hrn hread
    have hlen1 : (PinSt σ rn i id).length = σ.length := PinSt_length σ rn i id
    have hrn1 : rn < (PinSt σ rn i id).length := by rw [hlen1]; exact hrn
    have hread1 : readRef (PinSt σ rn i id) rn = Pin nc i id := by
      rw [readRef_PinSt_self σ rn i id hrn, hread]
    cases hres : reduceNext (PinSt σ rn i id) rn with
    | mk res2 σ2 =>
      have hfp := hf (PinSt σ rn i id) hrn1
      rw [hres] at hfp
      dsimp only at hfp
      have hpure : reduceNextPure (Pin nc i id) = res2 := by
        rw [← hread1, ← hc _ hrn1, hres]
      have hlen2 : σ.length ≤ σ2.length := hlen1 ▸ hfp.1
      have hrn2 : rn < σ2.length := Nat.lt_of_lt_of_le hrn hlen2
      have hread3 : readRef (UnpinSt σ2 rn i ic) rn = nc := by
        rw [readRef_UnpinSt_self σ2 rn i ic hrn2,
          hfp.2 rn (by rw [hlen1]; exact hrn), hread1,
          Pin_set_restore nc i id ic hset]
      have hcont := IH (UnpinSt σ2 rn i ic)
        (by rw [UnpinSt_length]; exact hrn2) hread3
      have hframe2 : ∀ r2 < σ.length, r2 ≠ rn → readRef σ2 r2 = readRef σ r2 := by
        intro r2 hr2 hne
        rw [hfp.2 r2 (by rw [hlen1]; exact hr2), PinSt_frame σ rn i id r2 hne]
      cases res2 with
      | none =>
        have hbv : branchVersionsSt reduceNext rn i ic (id :: rest) σ = (none, σ2) := by
          rw [branchVersionsSt, hres]
        rw [hbv, branchVersions, hpure]
        exact ⟨rfl, hlen2, hframe2⟩
      | some o =>
        cases o with
        | none =>
          have hbv : branchVersionsSt reduceNext rn i ic (id :: rest) σ
              = branchVersionsSt reduceNext rn i ic rest (UnpinSt σ2 rn i ic) := by
            rw [branchVersionsSt, hres]
          rw [hbv, branchVersions, hpure]
          refine ⟨hcont.1, ?_, ?_⟩
          · calc σ.length ≤ σ2.length := hlen2
              _ = (UnpinSt σ2 rn i ic).length := (UnpinSt_length σ2 rn i ic).symm
              _ ≤ _ := hcont.2.1
          · intro r2 hr2 hne
            rw [hcont.2.2 r2 (by rw [UnpinSt_length]; omega) hne,
              UnpinSt_frame σ2 rn i ic r2 hne, hframe2 r2 hr2 hne]
        | some mapping =>
          by_cases hn : IsNext ic id rest
          · have hbv : branchVersionsSt reduceNext rn i ic (id :: rest) σ
                = (some (some mapping), σ2) := by
              rw [branchVersionsSt, hres]
              dsimp only
              rw [if_pos hn]
            rw [hbv, branchVersions, hpure]
            refine ⟨?_, hlen2, hframe2⟩
            dsimp only
            rw [if_pos hn]
          · have hbv : branchVersionsSt reduceNext rn i ic (id :: rest) σ
                = branchVersionsSt reduceNext rn i ic rest (UnpinSt σ2 rn i ic) := by
              rw [branchVersionsSt, hres]
              dsimp only
              rw [if_neg hn]
            rw [hbv, branchVersions, hpure]
            refine ⟨?_, ?_, ?_⟩
            · rw [hcont.1]
              dsimp only
              rw [if_neg hn]
            · calc σ.length ≤ σ2.length := hlen2
                _ = (UnpinSt σ2 rn i ic).length := (UnpinSt_length σ2 rn i ic).symm
                _ ≤ _ := hcont.2.1
            · intro r2 hr2 hne
              rw [hcont.2.2 r2 (by rw [UnpinSt_length]; omega) hne,
                UnpinSt_frame σ2 rn i ic r2 hne, hframe2 r2 hr2 hne]

lemma scanSt_spec (reduceNext : Store → Ref → Option (Option ResolvedInputs) × Store)
    (reduceNextPure : InputCandidates → Option (Option ResolvedInputs)) (rn : Ref)
    (hc : ∀ σ2 : Store, rn < σ2.length →
      (reduceNext σ2 rn).1 = reduceNextPure (readRef σ2 rn))
    (hf : ∀ σ2 : Store, rn < σ2.length →
      σ2.length ≤ (reduceNext σ2 rn).2.length
      ∧ ∀ r2 < σ2.length, readRef (reduceNext σ2 rn).2 r2 = readRef σ2 r2) :
    ∀ (rem : Nat) (σ : Store) (i : Nat), rn < σ.length →
      ((scanAuxSt reduceNext rem σ rn i).1
          = scanAux reduceNextPure rem (readRef σ rn) i)
      ∧ σ.length ≤ (scanAuxSt reduceNext rem σ rn i).2.length
      ∧ ∀ r2 < σ.length, r2 ≠ rn →
          readRef (scanAuxSt reduceNext rem σ rn i).2 r2 = readRef σ r2 := by
  intro rem
  induction rem with
  | zero =>
    intro σ i _
    exact ⟨rfl, Nat.le_refl _, fun _ _ _ => rfl⟩
  | succ rem IH =>
    intro σ i hrn
    rw [scanAuxSt, scanAux]
    by_cases hd : i < (readRef σ rn).length
    · rw [dif_pos hd, dif_pos hd]
      by_cases g1 : (lenVC ((readRef σ rn).get ⟨i, hd⟩).VersionCandidates == 1) = true
      · rw [if_pos g1, if_pos g1]
        exact IH σ (i + 1) hrn
      · rw [if_neg g1, if_neg g1]
        by_cases g2 : (((readRef σ rn).get ⟨i, hd⟩).PinnedVersionID != 0) = true
        · rw [if_pos g2, if_pos g2]
          have h3 := IH
            (PinSt σ rn i ((readRef σ rn).get ⟨i, hd⟩).PinnedVersionID) (i + 1)
            (by rw [PinSt_length]; exact hrn)
          refine ⟨?_, ?_, ?_⟩
          · rw [h3.1, readRef_PinSt_self σ rn i _ hrn]
          · calc σ.length = (PinSt σ rn i _).length := (PinSt_length σ rn i _).symm
              _ ≤ _ := h3.2.1
          · intro r2 hr2 hne
            rw [h3.2.2 r2 (by rw [PinSt_length]; exact hr2) hne,
              PinSt_frame σ rn i _ r2 hne]
        · rw [if_neg g2, if_neg g2]
          exact branchSt_spec reduceNext reduceNextPure rn i
            ((readRef σ rn).get ⟨i, hd⟩) (readRef σ rn) hc hf
            (set_get_self (readRef σ rn) i hd)
            (VersionIDs ((readRef σ rn).get ⟨i, hd⟩).VersionCandidates) σ hrn rfl
    · rw [dif_neg hd, dif_neg hd]
      exact ⟨rfl, Nat.le_refl _, fun _ _ _ => rfl⟩

lemma reduceFuelSt_spec :
    ∀ (f d : Nat) (σ : Store) (rc : Ref) (jobs : List Nat), rc < σ.length →
      ((reduceFuelSt f d σ rc jobs).1 = reduceFuel f d (readRef σ rc) jobs)
      ∧ σ.length ≤ (reduceFuelSt f d σ rc jobs).2.length
      ∧ ∀ r2 < σ.length,
          readRef (reduceFuelSt f d σ rc jobs).2 r2 = readRef σ r2 := by
  intro f
  induction f with
  | zero =>
    intro d σ rc jobs _
    exact ⟨rfl, Nat.le_refl _, fun _ _ => rfl⟩
  | succ f IH =>
    intro d σ rc jobs hrc
    obtain ⟨hP2, hPlen, hPread, hPframe⟩ := pruneToCommonBuildsSt_spec σ rc jobs hrc
    have hrn : (pruneToCommonBuildsSt σ rc jobs).2
        < (pruneToCommonBuildsSt σ rc jobs).1.length := by
      rw [hP2, hPlen]
      exact Nat.lt_succ_self σ.length
    have hs := scanSt_spec (fun σ2 r2 => reduceFuelSt f (d + 1) σ2 r2 jobs)
      (fun nc => reduceFuel f (d + 1) nc jobs)
      (pruneToCommonBuildsSt σ rc jobs).2
      (fun σ2 h2 => (IH (d + 1) σ2 (pruneToCommonBuildsSt σ rc jobs).2 jobs h2).1)
      (fun σ2 h2 => ⟨(IH (d + 1) σ2 (pruneToCommonBuildsSt σ rc jobs).2 jobs h2).2.1,
        (IH (d + 1) σ2 (pruneToCommonBuildsSt σ rc jobs).2 jobs h2).2.2⟩)
      (readRef (pruneToCommonBuildsSt σ rc jobs).1
        (pruneToCommonBuildsSt σ rc jobs).2).length
      (pruneToCommonBuildsSt σ rc jobs).1 0 hrn
    refine ⟨?_, ?_, ?_⟩
    · rw [reduceFuelSt, hs.1, hPread, reduceFuel]
      unfold scanInputs
      rw [Nat.sub_zero]
    · rw [reduceFuelSt]
      calc σ.length ≤ σ.length + 1 := by omega
        _ = (pruneToCommonBuildsSt σ rc jobs).1.length := hPlen.symm
        _ ≤ _ := hs.2.1
    · intro r2 hr2
      rw [reduceFuelSt]
      rw [hs.2.2 r2 (by rw [hPlen]; omega) (by rw [hP2]; omega)]
      exact hPframe r2 hr2

/-- Claim C10 (confirmed).  In the store embedding, where every
assignment of the Go body is a write through a slice reference (Pin and
Unpin write elements, the prune loop writes elements, and
pruneToCommonBuildsSt models make and copy as allocation of a fresh
backing array), a call of Reduce on any valid reference leaves every
preexisting backing array, the caller's included, exactly as it was, and
computes the same result as the pure Reduce.  The theorem would fail if
the prune step did not allocate before the writes, or if any write
targeted the caller's reference. -/
theorem claim_C10_no_caller_mutation :
    ∀ (σ : Store) (rc : Ref) (d : Nat) (jobs : List Nat),
      rc < σ.length →
      (∀ r2 < σ.length, readRef (ReduceSt σ rc d jobs).2 r2 = readRef σ r2)
      ∧ (ReduceSt σ rc d jobs).1 = Reduce (readRef σ rc) d jobs := by
  intro σ rc d jobs hrc
  have h := reduceFuelSt_spec ((readRef σ rc).length + 1) d σ rc jobs hrc
  constructor
  · intro r2 hr2
    exact h.2.2 r2 hr2
  · show (reduceFuelSt ((readRef σ rc).length + 1) d σ rc jobs).1.getD none = _
    rw [h.1]
    rfl

/-- Witness for claim C10 on a one slice store holding the claim C1
instance: the backing array of the caller survives the call byte for
byte and the result matches the pure Reduce. -/
theorem claim_C10_witness :
    readRef (ReduceSt [[inputA, inputB]] 0 0 [1, 2]).2 0
        = readRef [[inputA, inputB]] 0
    ∧ (ReduceSt [[inputA, inputB]] 0 0 [1, 2]).1
        = Reduce (readRef [[inputA, inputB]] 0) 0 [1, 2] := by
  have h := claim_C10_no_caller_mutation [[inputA, inputB]] 0 0 [1, 2]
    (by decide)
  exact ⟨h.1 0 (by decide), h.2⟩

end ConcourseAlgo
